import Mathlib

/-!
Shallow embedding of the ivy file-backed DBMS (src/db.go, package ivy).

Modelling conventions, all derived from the Go source:

* Decoded JSON documents (`map[string]interface{}` after `json.Unmarshal`) are
  association lists `Rec`.  A decoded value is a `JVal`: db.go inspects values
  only through the type assertions `.(string)` (db.go:153,398,448) and
  `.([]interface{})` (db.go:443), and inspects array elements only through
  `.(string)`, so a value is modelled as a string, an array whose elements are
  each either a string or not, or some other value.
* A record file holds either bytes that unmarshal to a record (`FileData.json`)
  or bytes that do not (`FileData.invalid`).  `json.Marshal` of a record is
  total here, so `Create`/`Update` always write `FileData.json`.
* File names `<id>.json` are abstracted to the bare id: `fileIdsInDataDir`
  (db.go:325) appends `.json` suffixes and strips them again, which cancels.
  The directory listing order is the list order of the `fsys` association list.
* `ioutil.ReadDir`'s error is discarded in the source (db.go:328), so a missing
  table directory yields an empty listing.  `ReadFile`/`WriteFile`/`os.Remove`
  are deterministic here; their genuinely possible failures (absent file,
  absent directory) return errors as in Go.
* Go runtime panics (failed type assertions, nil-map `RWMutex` dereference for
  an unknown table, index out of range) are the `RRes.panicked` outcome,
  distinct from a returned `error` (`RRes.err`).  Deferred `Unlock` calls run
  on both error returns and panics, as in Go.
* `sync.RWMutex` operations are recorded as events in a `trace`; the semantics
  is single-threaded, and lock-span claims are stated as trace-shape
  properties.
* In `initNonTagsIndexes` (db.go:361), `initTagsIndex` (db.go:420) and
  `FindAllIdsForField` (db.go:128) the variable `rec` is declared once outside
  the scan loop.  `json.Unmarshal` into a non-nil map keeps existing entries
  (documented encoding/json behaviour), so keys absent from a later file leak
  from earlier files.  This is modelled by merging each newly decoded record
  onto the accumulated one with first-match lookup (`r ++ acc`).
* db.go:478 calls `db.initTagsIndex(tblName)` without capturing its returned
  error; the `if err != nil` that follows tests the stale `err` from
  `initNonTagsIndexes`, so a returned tag-rebuild error is dropped.  A panic
  still unwinds.  The model reproduces this faithfully.
-/

/-- An element of a decoded `[]interface{}`: db.go only ever asks whether it is
a string (db.go:448), so non-string elements are collapsed to `nonstr`. -/
inductive JElem where
  | str : String → JElem
  | nonstr : JElem
deriving DecidableEq, Repr

/-- A decoded JSON value as observed by db.go's type assertions. -/
inductive JVal where
  | str : String → JVal
  | arr : List JElem → JVal
  | other : JVal
deriving DecidableEq, Repr

/-- A decoded record: field name to value, first binding wins. -/
abbrev Rec := List (String × JVal)

/-- Content of a record file: valid JSON of a record, or bytes that fail to
unmarshal. -/
inductive FileData where
  | json : Rec → FileData
  | invalid : FileData
deriving DecidableEq, Repr

/-- Errors returned (as Go `error` values) by the modelled operations. -/
inductive GoErr where
  | atoiErr : String → GoErr
  | unmarshalErr : String → GoErr
  | fileNotFound : String → GoErr
  | removeErr : String → GoErr
  | writeErr : String → GoErr
deriving DecidableEq, Repr

/-- Outcome of a call: a normal return, a returned non-nil `error`, or a Go
runtime panic (which in Go unwinds instead of returning). -/
inductive RRes (α : Type) where
  | ok : α → RRes α
  | err : GoErr → RRes α
  | panicked : String → RRes α
deriving DecidableEq, Repr

/-- Events recorded while an operation runs: lock transitions and file-system
accesses. -/
inductive Ev where
  | rlock : String → Ev
  | runlock : String → Ev
  | wlock : String → Ev
  | wunlock : String → Ev
  | fsList : String → Ev
  | fsRead : String → String → Ev
  | fsWrite : String → String → Ev
  | fsRemove : String → String → Ev
deriving DecidableEq, Repr

/-- Whether an event is a lock acquisition or release. -/
def isLockEv : Ev → Bool
  | .rlock _ => true
  | .runlock _ => true
  | .wlock _ => true
  | .wunlock _ => true
  | _ => false

/-- The `DB` struct of db.go:28 plus the storage substrate (`fsys`: table name
to its directory of record files) and the event trace. -/
structure DB where
  rwLocks : List String
  fieldsToIndex : List (String × List String)
  tagIndexes : List (String × List (String × List String))
  fldIndexes : List (String × List (String × List (String × List String)))
  fsys : List (String × List (String × FileData))
  trace : List Ev
deriving DecidableEq, Repr

/-- A tag index for one table: tag to bucket of record ids (db.go:32). -/
abbrev TagIdx := List (String × List String)

/-- A field index for one table: field to value to bucket of ids (db.go:33). -/
abbrev FldIdx := List (String × List (String × List String))

/-- Go map lookup on an association list (first binding wins). -/
def alookup {α : Type} (k : String) : List (String × α) → Option α
  | [] => none
  | p :: rest => if k = p.1 then some p.2 else alookup k rest

/-- Go map assignment `m[k] = v`: replace the first binding of `k`, or append a
new binding. -/
def aset {α : Type} (k : String) (v : α) : List (String × α) → List (String × α)
  | [] => [(k, v)]
  | p :: rest => if k = p.1 then (k, v) :: rest else p :: aset k v rest

/-- Removal of the first binding of `k` (for `os.Remove`). -/
def adel {α : Type} (k : String) : List (String × α) → List (String × α)
  | [] => []
  | p :: rest => if k = p.1 then rest else p :: adel k rest

/-- The `stringInSlice` helper of db.go:538. -/
def stringInSlice (x : String) : List String → Bool
  | [] => false
  | y :: rest => if y = x then true else stringInSlice x rest

/-- Append an event to the trace. -/
def emit (e : Ev) (s : DB) : DB := { s with trace := s.trace ++ [e] }

/-- The record files of a table's directory (empty when the directory is
missing, matching the discarded `ReadDir` error). -/
def tblFiles (tbl : String) (s : DB) : List (String × FileData) :=
  (alookup tbl s.fsys).getD []

/-- The ids listed in a table's directory, in listing order. -/
def dirIds (tbl : String) (s : DB) : List String :=
  (tblFiles tbl s).map Prod.fst

/-- fileIdsInDataDir (db.go:325): list the table directory; the `ReadDir`
error is discarded, non-`.json` entries and the suffix handling are abstracted
away (`fsys` is keyed by id). -/
def fileIdsInDataDir (tbl : String) (s : DB) : DB × List String :=
  (emit (.fsList tbl) s, dirIds tbl s)

/-- `db.rwLocks[tblName].RLock()`: a nil map entry (unknown table) is a nil
pointer dereference, i.e. a panic (db.go:82). -/
def rLock (tbl : String) (s : DB) : DB × RRes Unit :=
  if tbl ∈ s.rwLocks then (emit (.rlock tbl) s, .ok ()) else (s, .panicked "nil RWMutex")

/-- `RUnlock` on the already-obtained mutex always succeeds. -/
def rUnlock (tbl : String) (s : DB) : DB := emit (.runlock tbl) s

/-- `db.rwLocks[tblName].Lock()` (db.go:222). -/
def wLock (tbl : String) (s : DB) : DB × RRes Unit :=
  if tbl ∈ s.rwLocks then (emit (.wlock tbl) s, .ok ()) else (s, .panicked "nil RWMutex")

/-- `Unlock` on the already-obtained mutex always succeeds. -/
def wUnlock (tbl : String) (s : DB) : DB := emit (.wunlock tbl) s

/-- `ioutil.ReadFile` of one record file: an absent file is a read error. -/
def readFileData (tbl fid : String) (s : DB) : DB × RRes FileData :=
  (emit (.fsRead tbl fid) s,
    match alookup fid (tblFiles tbl s) with
    | some d => .ok d
    | none => .err (.fileNotFound fid))

/-- `ioutil.WriteFile` (db.go:238): writing into a missing table directory
fails; otherwise the file is created or overwritten. -/
def writeFile (tbl fid : String) (d : FileData) (s : DB) : DB × RRes Unit :=
  match alookup tbl s.fsys with
  | some files =>
      ({ emit (.fsWrite tbl fid) s with fsys := aset tbl (aset fid d files) s.fsys }, .ok ())
  | none => (emit (.fsWrite tbl fid) s, .err (.writeErr fid))

/-- `os.Remove` (db.go:299): removing an absent file fails. -/
def removeFile (tbl fid : String) (s : DB) : DB × RRes Unit :=
  let s := emit (.fsRemove tbl fid) s
  match alookup tbl s.fsys with
  | some files =>
      match alookup fid files with
      | some _ => ({ s with fsys := aset tbl (adel fid files) s.fsys }, .ok ())
      | none => (s, .err (.removeErr fid))
  | none => (s, .err (.removeErr fid))

/-- One decimal digit as a character (`strconv.Itoa` output alphabet). -/
def digitChar : Nat → Char
  | 0 => '0' | 1 => '1' | 2 => '2' | 3 => '3' | 4 => '4'
  | 5 => '5' | 6 => '6' | 7 => '7' | 8 => '8' | _ => '9'

/-- Decimal digits of a natural number, most significant first (fuelled so the
definition reduces by evaluation). -/
def natChars (n : Nat) : List Char := go (n + 1) n
  where go : Nat → Nat → List Char
    | 0, _ => []
    | fuel + 1, m => if m < 10 then [digitChar m] else go fuel (m / 10) ++ [digitChar (m % 10)]

/-- `strconv.Itoa`: decimal string of an integer. -/
def intToStr (i : Int) : String :=
  String.mk (if i < 0 then '-' :: natChars (-i).toNat else natChars i.toNat)

/-- Whether a character is a decimal digit. -/
def isDigitB (c : Char) : Bool := 48 ≤ c.toNat && c.toNat ≤ 57

/-- Value of a big-endian digit string. -/
def digitsVal (cs : List Char) : Nat := cs.foldl (fun a c => a * 10 + (c.toNat - 48)) 0

/-- Parse a non-empty all-digit character list. -/
def parseDigits (cs : List Char) : Option Nat :=
  if cs ≠ [] ∧ cs.all isDigitB then some (digitsVal cs) else none

/-- `strconv.Atoi`: optional sign then decimal digits; anything else fails.
(The `ErrRange` overflow case is not modelled: identifiers stay small.) -/
def goAtoi (q : String) : Option Int :=
  match q.data with
  | [] => none
  | c :: rest =>
    if c = '-' then
      match parseDigits rest with
      | some n => some (-(n : Int))
      | none => none
    else if c = '+' then
      match parseDigits rest with
      | some n => some ((n : Int))
      | none => none
    else
      match parseDigits (c :: rest) with
      | some n => some ((n : Int))
      | none => none

/-- `strconv.Atoi` over a listing, stopping at the first failure
(db.go:493-500). -/
def collectInts : List String → RRes (List Int)
  | [] => .ok []
  | f :: rest =>
    match goAtoi f with
    | some n =>
        match collectInts rest with
        | .ok l => .ok (n :: l)
        | .err e => .err e
        | .panicked m => .panicked m
    | none => .err (.atoiErr f)

/-- Maximum of a list of integers (db.go sorts ascending with `sort.Ints` and
takes the last element, db.go:505-506, which is the maximum). -/
def maxOf : List Int → Int
  | [] => 0
  | x :: xs => xs.foldl max x

/-- nextAvailableFileId (db.go:489): max of the parsed ids plus one, `"1"`
when the table is empty, the `Atoi` error if some id does not parse. -/
def nextAvailableFileId (tbl : String) (s : DB) : DB × RRes String :=
  let p := fileIdsInDataDir tbl s
  match collectInts p.2 with
  | .ok l => (p.1, .ok (if l = [] then "1" else intToStr (maxOf l + 1)))
  | .err e => (p.1, .err e)
  | .panicked m => (p.1, .panicked m)

/-- Bucket of an index for one key (missing key: empty). -/
def bucketOf (idx : List (String × List String)) (k : String) : List String :=
  (alookup k idx).getD []

/-- The shared insert-if-absent step of both index builders (db.go:401-411 and
db.go:451-460): append `fid` to the bucket of `v` unless already present. -/
def bucketInsert (b : List (String × List String)) (v fid : String) :
    List (String × List String) :=
  match alookup v b with
  | some fids => if stringInSlice fid fids then b else aset v (fids ++ [fid]) b
  | none => aset v [fid] b

/-- The field index of one table. -/
def tblFldIdx (tbl : String) (s : DB) : FldIdx := (alookup tbl s.fldIndexes).getD []

/-- Replace the field index of one table. -/
def setTblFldIdx (tbl : String) (idx : FldIdx) (s : DB) : DB :=
  { s with fldIndexes := aset tbl idx s.fldIndexes }

/-- The tag index of one table. -/
def tblTagIdx (tbl : String) (s : DB) : TagIdx := (alookup tbl s.tagIndexes).getD []

/-- Bucket lookup in a field index. -/
def fBucket (fi : FldIdx) (f v : String) : List String :=
  bucketOf ((alookup f fi).getD []) v

/-- `db.fldIndexes[tblName][fldName][fldValue] = ...` insertion (db.go:401). -/
def fldIdxInsert (f v fid : String) (fi : FldIdx) : FldIdx :=
  aset f (bucketInsert ((alookup f fi).getD []) v fid) fi

/-- The inner per-record loop of initNonTagsIndexes (db.go:391-412): for every
configured field except "tags", assert the decoded value is a string and
insert the id.  A failed assertion is a panic; inserts made before it stay. -/
def idxRecFields (fid : String) (m : Rec) : List String → FldIdx → FldIdx × RRes Unit
  | [], fi => (fi, .ok ())
  | f :: fs, fi =>
    if f = "tags" then idxRecFields fid m fs fi
    else
      match alookup f m with
      | some (.str v) => idxRecFields fid m fs (fldIdxInsert f v fid fi)
      | _ => (fi, .panicked "interface conversion")

/-- The empty per-field skeleton built by db.go:368-375. -/
def skeletonFldIdx (flds : List String) : FldIdx :=
  flds.foldl (fun fi f => if f = "tags" then fi else aset f [] fi) []

/-- The scan loop of initNonTagsIndexes (db.go:378-413).  `recAcc` is the
shared `rec` variable: `json.Unmarshal` into it keeps entries from earlier
files, modelled by `r ++ recAcc`. -/
def nonTagsLoop (tbl : String) (flds : List String) :
    List String → Rec → DB → DB × RRes Unit
  | [], _, s => (s, .ok ())
  | fid :: rest, recAcc, s =>
    match readFileData tbl fid s with
    | (s, .ok (.json r)) =>
      let m := r ++ recAcc
      match idxRecFields fid m flds (tblFldIdx tbl s) with
      | (fi, .ok _) => nonTagsLoop tbl flds rest m (setTblFldIdx tbl fi s)
      | (fi, .err e) => (setTblFldIdx tbl fi s, .err e)
      | (fi, .panicked msg) => (setTblFldIdx tbl fi s, .panicked msg)
    | (s, .ok .invalid) => (s, .err (.unmarshalErr fid))
    | (s, .err e) => (s, .err e)
    | (s, .panicked msg) => (s, .panicked msg)

/-- initNonTagsIndexes (db.go:360): drop the table's field indexes, rebuild
the per-field skeleton, then scan every record file. -/
def initNonTagsIndexes (tbl : String) (s : DB) : DB × RRes Unit :=
  let flds := (alookup tbl s.fieldsToIndex).getD []
  let s := setTblFldIdx tbl (skeletonFldIdx flds) s
  let p := fileIdsInDataDir tbl s
  nonTagsLoop tbl flds p.2 [] p.1

/-- One tag insertion into the local `tagIndex` map (db.go:451-460). -/
def tagInsert (idx : TagIdx) (t fid : String) : TagIdx :=
  match alookup t idx with
  | some fids => if stringInSlice fid fids then idx else aset t (fids ++ [fid]) idx
  | none => aset t [fid] idx

/-- The per-record tag loop (db.go:446-461): each element must assert to a
string; elements inserted before a failed assertion stay in the local map. -/
def tagRecLoop (fid : String) : List JElem → TagIdx → TagIdx × RRes Unit
  | [], idx => (idx, .ok ())
  | .str t :: ts, idx => tagRecLoop fid ts (tagInsert idx t fid)
  | .nonstr :: _, idx => (idx, .panicked "interface conversion")

/-- The scan loop of initTagsIndex (db.go:429-462), building the local
`tagIndex`.  `recAcc` is again the shared `rec` variable. -/
def tagsLoop (tbl : String) :
    List String → Rec → TagIdx → DB → DB × (TagIdx × RRes Unit)
  | [], _, idx, s => (s, (idx, .ok ()))
  | fid :: rest, recAcc, idx, s =>
    match readFileData tbl fid s with
    | (s, .ok (.json r)) =>
      let m := r ++ recAcc
      match alookup "tags" m with
      | some (.arr ts) =>
        match tagRecLoop fid ts idx with
        | (idx, .ok _) => tagsLoop tbl rest m idx s
        | (idx, .err e) => (s, (idx, .err e))
        | (idx, .panicked msg) => (s, (idx, .panicked msg))
      | _ => (s, (idx, .panicked "interface conversion"))
    | (s, .ok .invalid) => (s, (idx, .err (.unmarshalErr fid)))
    | (s, .err e) => (s, (idx, .err e))
    | (s, .panicked msg) => (s, (idx, .panicked msg))

/-- Clearing of one table's tag-index binding in place. -/
def clearTI (tbl : String) (ti : List (String × TagIdx)) : List (String × TagIdx) :=
  ti.map (fun p => if p.1 = tbl then (p.1, []) else p)

/-- db.go:424-426 deletes every entry of `db.tagIndexes[tblName]` in place (no
new binding is created for an absent table). -/
def clearTagIdx (tbl : String) (s : DB) : DB :=
  { s with tagIndexes := clearTI tbl s.tagIndexes }

/-- initTagsIndex (db.go:419): clear the table's tag index, scan every record
building a fresh local map, and install it only on success. -/
def initTagsIndex (tbl : String) (s : DB) : DB × RRes Unit :=
  let s := clearTagIdx tbl s
  let p := fileIdsInDataDir tbl s
  match tagsLoop tbl p.2 [] [] p.1 with
  | (s, (idx, .ok _)) => ({ s with tagIndexes := aset tbl idx s.tagIndexes }, .ok ())
  | (s, (_, .err e)) => (s, .err e)
  | (s, (_, .panicked msg)) => (s, .panicked msg)

/-- initTblIndexes (db.go:470): rebuild both indexes of a configured table.
db.go:478 calls `initTagsIndex` without capturing its returned error — the
`if err != nil` after it tests the stale error from `initNonTagsIndexes` — so
a returned tag-rebuild error is dropped here; a panic still unwinds. -/
def initTblIndexes (tbl : String) (s : DB) : DB × RRes Unit :=
  match alookup tbl s.fieldsToIndex with
  | some fldNames =>
    match initNonTagsIndexes tbl s with
    | (s, .ok _) =>
      if stringInSlice "tags" fldNames then
        match initTagsIndex tbl s with
        | (s, .ok _) => (s, .ok ())
        | (s, .err _) => (s, .ok ())
        | (s, .panicked msg) => (s, .panicked msg)
      else (s, .ok ())
    | (s, .err e) => (s, .err e)
    | (s, .panicked msg) => (s, .panicked msg)
  | none => (s, .ok ())

/-- FindAllIds (db.go:98): list the table under the read lock; always returns
a nil error. -/
def FindAllIds (tbl : String) (s : DB) : DB × RRes (List String) :=
  match rLock tbl s with
  | (s, .ok _) =>
    let p := fileIdsInDataDir tbl s
    (rUnlock tbl p.1, .ok p.2)
  | (s, .err e) => (s, .err e)
  | (s, .panicked msg) => (s, .panicked msg)

/-- The scanning fallback loop of FindAllIdsForField (db.go:140-156).
`recAcc` is the shared `rec` variable of db.go:128. -/
def scanFieldLoop (tbl fld v : String) :
    List String → Rec → List String → DB → DB × RRes (List String)
  | [], _, acc, s => (s, .ok acc)
  | fid :: rest, recAcc, acc, s =>
    match readFileData tbl fid s with
    | (s, .ok (.json r)) =>
      let m := r ++ recAcc
      match alookup fld m with
      | some (.str u) =>
          scanFieldLoop tbl fld v rest m (if u = v then acc ++ [fid] else acc) s
      | _ => (s, .panicked "interface conversion")
    | (s, .ok .invalid) => (s, .err (.unmarshalErr fid))
    | (s, .err e) => (s, .err e)
    | (s, .panicked msg) => (s, .panicked msg)

/-- The whole scanning fallback: list the directory, then scan. -/
def scanFallback (tbl fld v : String) (s : DB) : DB × RRes (List String) :=
  let p := fileIdsInDataDir tbl s
  scanFieldLoop tbl fld v p.2 [] [] p.1

/-- The indexed fast path `db.fldIndexes[tblName][searchField][searchValue]`
(db.go:135): present only when the whole chain of keys exists. -/
def idxLookup (s : DB) (tbl fld v : String) : Option (List String) :=
  match alookup tbl s.fldIndexes with
  | some fi =>
    match alookup fld fi with
    | some b => alookup v b
    | none => none
  | none => none

/-- FindAllIdsForField (db.go:127): return the index bucket when the chain of
keys exists, otherwise scan every record. -/
def FindAllIdsForField (tbl fld v : String) (s : DB) : DB × RRes (List String) :=
  match rLock tbl s with
  | (s, .ok _) =>
    match idxLookup s tbl fld v with
    | some ids => (rUnlock tbl s, .ok ids)
    | none =>
      let p := scanFallback tbl fld v s
      (rUnlock tbl p.1, p.2)
  | (s, .err e) => (s, .err e)
  | (s, .panicked msg) => (s, .panicked msg)

/-- FindFirstIdForField (db.go:115): first element of FindAllIdsForField's
result; `results[0]` of an empty slice is an index-out-of-range panic. -/
def FindFirstIdForField (tbl fld v : String) (s : DB) : DB × RRes String :=
  match FindAllIdsForField tbl fld v s with
  | (s, .ok results) =>
    match results with
    | x :: _ => (s, .ok x)
    | [] => (s, .panicked "index out of range")
  | (s, .err e) => (s, .err e)
  | (s, .panicked msg) => (s, .panicked msg)

/-- The inner bucket loop of FindAllIdsForTags (db.go:181-192): bump the
occurrence count of every id in one tag's bucket. -/
def bumpIds : List String → List (String × Nat) → List (String × Nat)
  | [], m => m
  | fid :: rest, m =>
    bumpIds rest
      (match alookup fid m with
       | some n => aset fid (n + 1) m
       | none => aset fid 1 m)

/-- The outer tag loop of FindAllIdsForTags (db.go:177-194): tags absent from
the index contribute nothing. -/
def tallyTags (ti : TagIdx) : List String → List (String × Nat) → List (String × Nat)
  | [], m => m
  | t :: ts, m =>
    tallyTags ti ts
      (match alookup t ti with
       | some fids => bumpIds fids m
       | none => m)

/-- FindAllIdsForTags (db.go:164): an id qualifies when its occurrence count
equals the number of search tags; an empty search list yields no ids. -/
def FindAllIdsForTags (tbl : String) (searchTags : List String) (s : DB) :
    DB × RRes (List String) :=
  match rLock tbl s with
  | (s, .ok _) =>
    let ids : List String :=
      if searchTags = [] then []
      else
        ((tallyTags (tblTagIdx tbl s) searchTags []).filter
          (fun p => p.2 = searchTags.length)).map Prod.fst
    (rUnlock tbl s, .ok ids)
  | (s, .err e) => (s, .err e)
  | (s, .panicked msg) => (s, .panicked msg)

/-- Create (db.go:221): allocate the id, marshal and write, rebuild both
indexes, all inside the write lock.  On a rebuild error Go returns
`(fileId, err)`; the error value is what callers test, so the outcome is
`.err`. -/
def Create (tbl : String) (rec : Rec) (s : DB) : DB × RRes String :=
  match wLock tbl s with
  | (s, .ok _) =>
    match nextAvailableFileId tbl s with
    | (s, .ok fid) =>
      match writeFile tbl fid (.json rec) s with
      | (s, .ok _) =>
        match initTblIndexes tbl s with
        | (s, .ok _) => (wUnlock tbl s, .ok fid)
        | (s, .err e) => (wUnlock tbl s, .err e)
        | (s, .panicked msg) => (wUnlock tbl s, .panicked msg)
      | (s, .err e) => (wUnlock tbl s, .err e)
      | (s, .panicked msg) => (wUnlock tbl s, .panicked msg)
    | (s, .err e) => (wUnlock tbl s, .err e)
    | (s, .panicked msg) => (wUnlock tbl s, .panicked msg)
  | (s, .err e) => (s, .err e)
  | (s, .panicked msg) => (s, .panicked msg)

/-- Update (db.go:254): takes the write lock first, then validates the id with
`strconv.Atoi`, then overwrites the file and rebuilds. -/
def Update (tbl : String) (rec : Rec) (fid : String) (s : DB) : DB × RRes Unit :=
  match wLock tbl s with
  | (s, .ok _) =>
    match goAtoi fid with
    | none => (wUnlock tbl s, .err (.atoiErr fid))
    | some _ =>
      match writeFile tbl fid (.json rec) s with
      | (s, .ok _) =>
        match initTblIndexes tbl s with
        | (s, .ok _) => (wUnlock tbl s, .ok ())
        | (s, .err e) => (wUnlock tbl s, .err e)
        | (s, .panicked msg) => (wUnlock tbl s, .panicked msg)
      | (s, .err e) => (wUnlock tbl s, .err e)
      | (s, .panicked msg) => (wUnlock tbl s, .panicked msg)
  | (s, .err e) => (s, .err e)
  | (s, .panicked msg) => (s, .panicked msg)

/-- Delete (db.go:288): validates the id before taking the lock, then removes
the file and rebuilds. -/
def Delete (tbl : String) (fid : String) (s : DB) : DB × RRes Unit :=
  match goAtoi fid with
  | none => (s, .err (.atoiErr fid))
  | some _ =>
    match wLock tbl s with
    | (s, .ok _) =>
      match removeFile tbl fid s with
      | (s, .ok _) =>
        match initTblIndexes tbl s with
        | (s, .ok _) => (wUnlock tbl s, .ok ())
        | (s, .err e) => (wUnlock tbl s, .err e)
        | (s, .panicked msg) => (wUnlock tbl s, .panicked msg)
      | (s, .err e) => (wUnlock tbl s, .err e)
      | (s, .panicked msg) => (wUnlock tbl s, .panicked msg)
    | (s, .err e) => (s, .err e)
    | (s, .panicked msg) => (s, .panicked msg)

/-- The sequence of effective decoded records seen by a scan loop: each file's
fresh decode merged over the leaked accumulator (meaningful when every listed
file unmarshals). -/
def chain : List (String × FileData) → Rec → List (String × Rec)
  | [], _ => []
  | (fid, .json r) :: rest, acc => (fid, r ++ acc) :: chain rest (r ++ acc)
  | (_, .invalid) :: _, _ => []

/-- Pure mirror of the initNonTagsIndexes scan over the file contents
themselves (used to characterise the state-threaded loop). -/
def buildFlds : List (String × FileData) → Rec → List String → FldIdx → FldIdx × RRes Unit
  | [], _, _, fi => (fi, .ok ())
  | (fid, .invalid) :: _, _, _, fi => (fi, .err (.unmarshalErr fid))
  | (fid, .json r) :: rest, acc, flds, fi =>
    let m := r ++ acc
    match idxRecFields fid m flds fi with
    | (fi, .ok _) => buildFlds rest m flds fi
    | (fi, .err e) => (fi, .err e)
    | (fi, .panicked msg) => (fi, .panicked msg)

/-- Pure mirror of the initTagsIndex scan. -/
def buildTags : List (String × FileData) → Rec → TagIdx → TagIdx × RRes Unit
  | [], _, idx => (idx, .ok ())
  | (fid, .invalid) :: _, _, idx => (idx, .err (.unmarshalErr fid))
  | (fid, .json r) :: rest, acc, idx =>
    let m := r ++ acc
    match alookup "tags" m with
    | some (.arr ts) =>
      match tagRecLoop fid ts idx with
      | (idx, .ok _) => buildTags rest m idx
      | (idx, .err e) => (idx, .err e)
      | (idx, .panicked msg) => (idx, .panicked msg)
    | _ => (idx, .panicked "interface conversion")

/-- Pure mirror of the scanning fallback over the file contents. -/
def scanPure : List (String × FileData) → Rec → String → String → RRes (List String)
  | [], _, _, _ => .ok []
  | (fid, .invalid) :: _, _, _, _ => .err (.unmarshalErr fid)
  | (fid, .json r) :: rest, acc, fld, v =>
    let m := r ++ acc
    match alookup fld m with
    | some (.str u) =>
      match scanPure rest m fld v with
      | .ok l => .ok (if u = v then fid :: l else l)
      | .err e => .err e
      | .panicked msg => .panicked msg
    | _ => .panicked "interface conversion"

/-- The "tags" attribute a file contributes on its own (no leak): present only
when the file unmarshals and its record's "tags" key is an array. -/
def ownTags : FileData → Option (List JElem)
  | .json r =>
    match alookup "tags" r with
    | some (.arr ts) => some ts
    | _ => none
  | .invalid => none

/-- A trace fragment with no lock events. -/
def lockFree (l : List Ev) : Prop := ∀ e ∈ l, isLockEv e = false

/-- The field index a full rebuild computes from the current files, paired
with the rebuild outcome. -/
def fldRebuild (tbl : String) (s : DB) : FldIdx × RRes Unit :=
  buildFlds (tblFiles tbl s) [] ((alookup tbl s.fieldsToIndex).getD [])
    (skeletonFldIdx ((alookup tbl s.fieldsToIndex).getD []))

/-- The tag index a full rebuild computes from the current files, paired with
the rebuild outcome. -/
def tagRebuild (tbl : String) (s : DB) : TagIdx × RRes Unit :=
  buildTags (tblFiles tbl s) [] []

/-- A record of the end-to-end example of the specification. -/
def recAlice : Rec := [("author", .str "alice"), ("tags", .arr [.str "go", .str "db"])]

/-- A record of the end-to-end example of the specification. -/
def recBob : Rec := [("author", .str "bob"), ("tags", .arr [.str "go"])]

/-- A store with one table "posts" indexed on "author" and "tags", two
records, and indexes consistent with the files (they equal what a full
rebuild computes). -/
def dbPosts : DB :=
  { rwLocks := ["posts"],
    fieldsToIndex := [("posts", ["author", "tags"])],
    tagIndexes := [("posts", [("go", ["1", "2"]), ("db", ["1"])])],
    fldIndexes := [("posts", [("author", [("alice", ["1"]), ("bob", ["2"])])])],
    fsys := [("posts", [("1", .json recAlice), ("2", .json recBob)])],
    trace := [] }

/-- A store whose second record lacks a "tags" attribute: scanning it after
record "1" makes the shared `rec` map leak record 1's tags into record 2. -/
def dbLeak : DB :=
  { rwLocks := ["t"],
    fieldsToIndex := [("t", ["tags"])],
    tagIndexes := [("t", [("a", ["1"])])],
    fldIndexes := [("t", [])],
    fsys := [("t", [("1", .json [("tags", .arr [.str "a"])]), ("2", .json [])])],
    trace := [] }

/-- A store whose record "1" has a "tags" attribute that is a string, not an
array: the `.([]interface{})` assertion in the tag rebuild fails on it. -/
def dbBadTags : DB :=
  { rwLocks := ["t"],
    fieldsToIndex := [("t", ["tags"])],
    tagIndexes := [("t", [])],
    fldIndexes := [("t", [])],
    fsys := [("t", [("1", .json [("tags", .str "oops")])])],
    trace := [] }

/-- The tag AND-semantics example of the specification: records tagged
[a, b], [a] and [b, c], with a consistent tag index. -/
def dbTags : DB :=
  { rwLocks := ["t"],
    fieldsToIndex := [("t", ["tags"])],
    tagIndexes := [("t", [("a", ["1", "2"]), ("b", ["1", "3"]), ("c", ["3"])])],
    fldIndexes := [("t", [])],
    fsys := [("t", [("1", .json [("tags", .arr [.str "a", .str "b"])]),
                    ("2", .json [("tags", .arr [.str "a"])]),
                    ("3", .json [("tags", .arr [.str "b", .str "c"])])])],
    trace := [] }

/-! ### Association-list lemmas -/

@[simp] theorem alookup_nil {α : Type} (k : String) : alookup k ([] : List (String × α)) = none := rfl

theorem alookup_cons {α : Type} (k : String) (p : String × α) (rest : List (String × α)) :
    alookup k (p :: rest) = if k = p.1 then some p.2 else alookup k rest := rfl

@[simp] theorem alookup_aset_self {α : Type} (k : String) (v : α) (m : List (String × α)) :
    alookup k (aset k v m) = some v := by
  induction m with
  | nil => simp [aset, alookup]
  | cons p rest ih =>
    by_cases h : k = p.1 <;> simp [aset, alookup, h, ih]

theorem alookup_aset_ne {α : Type} {k k' : String} (v : α) (m : List (String × α))
    (h : k' ≠ k) : alookup k' (aset k v m) = alookup k' m := by
  induction m with
  | nil => simp [aset, alookup, h]
  | cons p rest ih =>
    by_cases hk : k = p.1
    · subst hk
      simp [aset, alookup, h]
    · by_cases hk' : k' = p.1 <;> simp [aset, alookup, hk, hk', ih]

theorem aset_self {α : Type} {k : String} {v : α} {m : List (String × α)}
    (h : alookup k m = some v) : aset k v m = m := by
  induction m with
  | nil => simp [alookup] at h
  | cons p rest ih =>
    by_cases hk : k = p.1
    · simp [alookup, hk] at h
      simp [aset, hk, ← h]
    · simp [alookup, hk] at h
      simp [aset, hk, ih h]

theorem aset_aset {α : Type} (k : String) (v v' : α) (m : List (String × α)) :
    aset k v' (aset k v m) = aset k v' m := by
  induction m with
  | nil => simp [aset]
  | cons p rest ih =>
    by_cases hk : k = p.1 <;> simp [aset, hk, ih]

theorem alookup_of_nodup_mem {α : Type} {m : List (String × α)} {k : String} {v : α}
    (hnd : (m.map Prod.fst).Nodup) (hm : (k, v) ∈ m) : alookup k m = some v := by
  induction m with
  | nil => simp at hm
  | cons p rest ih =>
    simp only [List.map_cons, List.nodup_cons] at hnd
    rcases List.mem_cons.mp hm with h | h
    · subst h
      simp [alookup]
    · have hne : k ≠ p.1 := by
        intro hk
        exact hnd.1 (hk ▸ List.mem_map.mpr ⟨(k, v), h, rfl⟩)
      simp [alookup, hne, ih hnd.2 h]

theorem alookup_mem {α : Type} {m : List (String × α)} {k : String} {v : α}
    (h : alookup k m = some v) : (k, v) ∈ m := by
  induction m with
  | nil => simp [alookup] at h
  | cons p rest ih =>
    by_cases hk : k = p.1
    · simp [alookup, hk] at h
      subst hk
      rcases p with ⟨k, w⟩
      simp at h ⊢
      exact Or.inl h.symm
    · simp [alookup, hk] at h
      exact List.mem_cons.mpr (Or.inr (ih h))

theorem alookup_append_left {α : Type} {k : String} {xs : List (String × α)} {v : α}
    (h : alookup k xs = some v) (ys : List (String × α)) :
    alookup k (xs ++ ys) = some v := by
  induction xs with
  | nil => simp [alookup] at h
  | cons p rest ih =>
    by_cases hk : k = p.1 <;> simp [alookup, hk] at h ⊢ <;> simp_all

theorem alookup_append_right {α : Type} {k : String} {xs : List (String × α)}
    (h : alookup k xs = none) (ys : List (String × α)) :
    alookup k (xs ++ ys) = alookup k ys := by
  induction xs with
  | nil => simp
  | cons p rest ih =>
    by_cases hk : k = p.1 <;> simp [alookup, hk] at h ⊢ <;> simp_all

theorem stringInSlice_iff (x : String) (l : List String) :
    stringInSlice x l = true ↔ x ∈ l := by
  induction l with
  | nil => simp [stringInSlice]
  | cons y rest ih =>
    by_cases h : y = x
    · subst h
      simp [stringInSlice]
    · simp [stringInSlice, h, ih]
      intro hx
      exact absurd hx.symm h

theorem map_fst_aset_mem {α : Type} {k : String} {m : List (String × α)} (v : α)
    (h : k ∈ m.map Prod.fst) : (aset k v m).map Prod.fst = m.map Prod.fst := by
  induction m with
  | nil => simp at h
  | cons p rest ih =>
    by_cases hk : k = p.1
    · simp [aset, hk]
    · rw [List.map_cons, List.mem_cons] at h
      rcases h with h | h
      · exact absurd h hk
      · simp [aset, hk, ih h]

theorem map_fst_aset_fresh {α : Type} {k : String} {m : List (String × α)} (v : α)
    (h : ¬ k ∈ m.map Prod.fst) : (aset k v m).map Prod.fst = m.map Prod.fst ++ [k] := by
  induction m with
  | nil => simp [aset]
  | cons p rest ih =>
    rw [List.map_cons, List.mem_cons] at h
    push_neg at h
    simp [aset, h.1, ih h.2]

/-! ### Decimal string round-trip (`strconv.Itoa` / `strconv.Atoi`) -/

theorem digitChar_toNat {k : Nat} (h : k < 10) : (digitChar k).toNat = 48 + k := by
  interval_cases k <;> rfl

theorem isDigitB_digitChar {k : Nat} (h : k < 10) : isDigitB (digitChar k) = true := by
  interval_cases k <;> rfl

theorem isDigitB_ne_dash {c : Char} (h : isDigitB c = true) : ¬ c = '-' := by
  rintro rfl
  simp [isDigitB] at h

theorem isDigitB_ne_plus {c : Char} (h : isDigitB c = true) : ¬ c = '+' := by
  rintro rfl
  simp [isDigitB] at h

theorem natChars_go_spec :
    ∀ (fuel m : Nat), m < fuel →
      natChars.go fuel m ≠ [] ∧ (natChars.go fuel m).all isDigitB = true ∧
      digitsVal (natChars.go fuel m) = m := by
  intro fuel
  induction fuel with
  | zero => intro m hm; omega
  | succ fuel ih =>
    intro m hm
    by_cases h10 : m < 10
    · refine ⟨by simp [natChars.go, h10], ?_, ?_⟩
      · simp [natChars.go, h10, List.all_cons, isDigitB_digitChar h10]
      · simp [natChars.go, h10, digitsVal, digitChar_toNat h10]
    · have hdiv : m / 10 < fuel := by
        have : m / 10 < m := Nat.div_lt_self (by omega) (by omega)
        omega
      obtain ⟨hne, hdig, hval⟩ := ih (m / 10) hdiv
      have hm10 : m % 10 < 10 := Nat.mod_lt _ (by omega)
      refine ⟨by simp [natChars.go, h10], ?_, ?_⟩
      · simp only [natChars.go, if_neg h10, List.all_append, List.all_cons, List.all_nil]
        simp [hdig, isDigitB_digitChar hm10]
      · simp only [natChars.go, if_neg h10, digitsVal, List.foldl_append]
        simp only [digitsVal] at hval
        simp [hval, digitChar_toNat hm10]
        omega

theorem parseDigits_natChars (n : Nat) : parseDigits (natChars n) = some n := by
  obtain ⟨hne, hdig, hval⟩ := natChars_go_spec (n + 1) n (by omega)
  simp [natChars, parseDigits, hne, hdig, hval]

theorem natChars_head_digit (n : Nat) :
    ∃ c cs, natChars n = c :: cs ∧ isDigitB c = true := by
  obtain ⟨hne, hdig, _⟩ := natChars_go_spec (n + 1) n (by omega)
  rcases h : natChars.go (n + 1) n with _ | ⟨c, cs⟩
  · exact absurd h hne
  · refine ⟨c, cs, by simp [natChars, h], ?_⟩
    rw [h, List.all_cons, Bool.and_eq_true] at hdig
    exact hdig.1

theorem goAtoi_intToStr (i : Int) : goAtoi (intToStr i) = some i := by
  by_cases hneg : i < 0
  · have hdata : (String.mk ('-' :: natChars (-i).toNat)).data = '-' :: natChars (-i).toNat := rfl
    simp only [intToStr, if_pos hneg, goAtoi, hdata, if_pos rfl, if_true,
      parseDigits_natChars, Option.some.injEq]
    omega
  · obtain ⟨c, cs, hc, hd⟩ := natChars_head_digit i.toNat
    have hpd : parseDigits (c :: cs) = some i.toNat := hc ▸ parseDigits_natChars i.toNat
    simp only [intToStr, if_neg hneg, goAtoi, hc]
    simp only [if_neg (isDigitB_ne_dash hd), if_neg (isDigitB_ne_plus hd), hpd,
      Option.some.injEq]
    omega

/-! ### Bucket and index-insertion lemmas -/

theorem bucketOf_bucketInsert (b : List (String × List String)) (v fid w x : String) :
    x ∈ bucketOf (bucketInsert b v fid) w ↔ x ∈ bucketOf b w ∨ (w = v ∧ x = fid) := by
  unfold bucketInsert
  rcases hb : alookup v b with _ | fids
  · by_cases hw : w = v
    · subst hw
      simp [bucketOf, hb]
    · simp [bucketOf, alookup_aset_ne _ _ hw, hw]
  · by_cases hin : stringInSlice fid fids
    · have hfid : fid ∈ fids := (stringInSlice_iff _ _).mp hin
      simp only [hin, if_true]
      by_cases hw : w = v
      · subst hw
        simp only [bucketOf, hb, Option.getD_some]
        constructor
        · exact fun h => Or.inl h
        · rintro (h | ⟨-, rfl⟩) <;> [exact h; exact hfid]
      · simp [hw]
    · simp only [hin, if_false]
      by_cases hw : w = v
      · subst hw
        simp [bucketOf, alookup_aset_self, hb]
      · simp [bucketOf, alookup_aset_ne _ _ hw, hw]

theorem bucketOf_nodup {b : List (String × List String)}
    (h : ∀ p ∈ b, p.2.Nodup) (w : String) : (bucketOf b w).Nodup := by
  rcases hb : alookup w b with _ | fids
  · simp [bucketOf, hb]
  · simpa [bucketOf, hb] using h _ (alookup_mem hb)

theorem forall_mem_aset {α : Type} {P : String × α → Prop} {m : List (String × α)}
    {k : String} {v : α} (hm : ∀ p ∈ m, P p) (hv : P (k, v)) :
    ∀ p ∈ aset k v m, P p := by
  induction m with
  | nil =>
    intro p hp
    simp [aset] at hp
    exact hp ▸ hv
  | cons q rest ih =>
    intro p hp
    by_cases hk : k = q.1
    · simp only [aset, if_pos hk] at hp
      rcases List.mem_cons.mp hp with h | h
      · exact h ▸ hv
      · exact hm p (List.mem_cons.mpr (Or.inr h))
    · simp only [aset, if_neg hk] at hp
      rcases List.mem_cons.mp hp with h | h
      · exact hm p (h ▸ List.mem_cons.mpr (Or.inl rfl))
      · exact ih (fun q hq => hm q (List.mem_cons.mpr (Or.inr hq))) p h

theorem bucketInsert_nodup {b : List (String × List String)} (v fid : String)
    (h : ∀ p ∈ b, p.2.Nodup) : ∀ p ∈ bucketInsert b v fid, p.2.Nodup := by
  unfold bucketInsert
  rcases hb : alookup v b with _ | fids
  · exact forall_mem_aset h (by simp)
  · by_cases hin : stringInSlice fid fids
    · simpa [hin] using h
    · have hfid : ¬ fid ∈ fids := fun hc => hin ((stringInSlice_iff _ _).mpr hc)
      have hnd : fids.Nodup := h _ (alookup_mem hb)
      simp only [hin, if_false]
      exact forall_mem_aset h (by simp [List.nodup_append, hfid, hnd])

theorem fBucket_fldIdxInsert (fi : FldIdx) (f v fid g w x : String) :
    x ∈ fBucket (fldIdxInsert f v fid fi) g w ↔
      x ∈ fBucket fi g w ∨ (g = f ∧ w = v ∧ x = fid) := by
  unfold fldIdxInsert
  by_cases hg : g = f
  · subst hg
    simp only [fBucket, alookup_aset_self, Option.getD_some]
    rw [bucketOf_bucketInsert]
    tauto
  · simp [fBucket, alookup_aset_ne _ _ hg, hg]

/-! ### Characterisation of the pure scan mirrors -/

theorem idxRecFields_ok_str {fid : String} {m : Rec} :
    ∀ {flds : List String} {fi fi' : FldIdx}, idxRecFields fid m flds fi = (fi', .ok ()) →
      ∀ g ∈ flds, ¬ g = "tags" → ∃ u, alookup g m = some (.str u) := by
  intro flds
  induction flds with
  | nil => simp
  | cons f fs ih =>
    intro fi fi' h g hg hgt
    rcases List.mem_cons.mp hg with rfl | hgfs
    · rw [idxRecFields, if_neg hgt] at h
      rcases hm : alookup g m with _ | v
      · rw [hm] at h
        simp at h
      · rcases v with u | ts | _
        · exact ⟨u, rfl⟩
        · rw [hm] at h
          simp at h
        · rw [hm] at h
          simp at h
    · by_cases hf : f = "tags"
      · rw [idxRecFields, if_pos hf] at h
        exact ih h g hgfs hgt
      · rw [idxRecFields, if_neg hf] at h
        rcases hm : alookup f m with _ | v
        · rw [hm] at h
          simp at h
        · rcases v with u | ts | _
          · rw [hm] at h
            exact ih h g hgfs hgt
          · rw [hm] at h
            simp at h
          · rw [hm] at h
            simp at h

theorem idxRecFields_ok_mem {fid : String} {m : Rec} :
    ∀ {flds : List String} {fi fi' : FldIdx}, idxRecFields fid m flds fi = (fi', .ok ()) →
      ∀ g w x, x ∈ fBucket fi' g w ↔
        x ∈ fBucket fi g w ∨ (g ∈ flds ∧ ¬ g = "tags" ∧ x = fid ∧ alookup g m = some (.str w)) := by
  intro flds
  induction flds with
  | nil =>
    intro fi fi' h g w x
    simp only [idxRecFields, Prod.mk.injEq] at h
    simp [h.1]
  | cons f fs ih =>
    intro fi fi' h g w x
    by_cases hf : f = "tags"
    · rw [idxRecFields, if_pos hf] at h
      rw [ih h]
      subst hf
      constructor
      · rintro (h | ⟨h1, h2, h3, h4⟩)
        · exact Or.inl h
        · exact Or.inr ⟨List.mem_cons.mpr (Or.inr h1), h2, h3, h4⟩
      · rintro (h | ⟨h1, h2, h3, h4⟩)
        · exact Or.inl h
        · rcases List.mem_cons.mp h1 with rfl | h1
          · exact absurd rfl h2
          · exact Or.inr ⟨h1, h2, h3, h4⟩
    · rw [idxRecFields, if_neg hf] at h
      rcases hm : alookup f m with _ | v
      · rw [hm] at h
        simp at h
      · rcases v with u | ts | _
        · rw [hm] at h
          rw [ih h, fBucket_fldIdxInsert]
          constructor
          · rintro ((h | ⟨rfl, rfl, rfl⟩) | ⟨h1, h2, h3, h4⟩)
            · exact Or.inl h
            · exact Or.inr ⟨List.mem_cons.mpr (Or.inl rfl), hf, rfl, hm⟩
            · exact Or.inr ⟨List.mem_cons.mpr (Or.inr h1), h2, h3, h4⟩
          · rintro (h | ⟨h1, h2, h3, h4⟩)
            · exact Or.inl (Or.inl h)
            · rcases List.mem_cons.mp h1 with rfl | h1
              · rw [hm] at h4
                rcases Option.some.injEq _ _ ▸ h4 with h4
                cases h4
                exact Or.inl (Or.inr ⟨rfl, rfl, h3⟩)
              · exact Or.inr ⟨h1, h2, h3, h4⟩
        · rw [hm] at h
          simp at h
        · rw [hm] at h
          simp at h

theorem buildFlds_ok_str {flds : List String} :
    ∀ {sub : List (String × FileData)} {acc : Rec} {fi B : FldIdx},
      buildFlds sub acc flds fi = (B, .ok ()) →
      ∀ g ∈ flds, ¬ g = "tags" → ∀ p ∈ chain sub acc, ∃ u, alookup g p.2 = some (.str u) := by
  intro sub
  induction sub with
  | nil => simp [chain]
  | cons q rest ih =>
    intro acc fi B h g hg hgt p hp
    rcases q with ⟨fid, d⟩
    rcases d with r | _
    · rw [buildFlds] at h
      rcases hi : idxRecFields fid (r ++ acc) flds fi with ⟨fi1, res1⟩
      rw [hi] at h
      rcases res1 with _ | e | msg
      · rw [chain] at hp
        rcases List.mem_cons.mp hp with rfl | hp
        · exact idxRecFields_ok_str hi g hg hgt
        · exact ih h g hg hgt p hp
      · simp at h
      · simp at h
    · rw [buildFlds] at h
      simp at h

theorem buildFlds_ok_mem {flds : List String} :
    ∀ {sub : List (String × FileData)} {acc : Rec} {fi B : FldIdx},
      buildFlds sub acc flds fi = (B, .ok ()) →
      ∀ g w x, g ∈ flds → ¬ g = "tags" →
        (x ∈ fBucket B g w ↔
          x ∈ fBucket fi g w ∨ ∃ r, (x, r) ∈ chain sub acc ∧ alookup g r = some (.str w)) := by
  intro sub
  induction sub with
  | nil =>
    intro acc fi B h g w x hg hgt
    simp only [buildFlds, Prod.mk.injEq] at h
    simp [h.1, chain]
  | cons q rest ih =>
    intro acc fi B h g w x hg hgt
    rcases q with ⟨fid, d⟩
    rcases d with r | _
    · rw [buildFlds] at h
      rcases hi : idxRecFields fid (r ++ acc) flds fi with ⟨fi1, res1⟩
      rw [hi] at h
      rcases res1 with _ | e | msg
      · rw [ih h g w x hg hgt, idxRecFields_ok_mem hi g w x]
        rw [chain]
        constructor
        · rintro ((hb | ⟨h1, h2, rfl, h4⟩) | ⟨r2, hr2, hl⟩)
          · exact Or.inl hb
          · exact Or.inr ⟨r ++ acc, List.mem_cons.mpr (Or.inl rfl), h4⟩
          · exact Or.inr ⟨r2, List.mem_cons.mpr (Or.inr hr2), hl⟩
        · rintro (hb | ⟨r2, hr2, hl⟩)
          · exact Or.inl (Or.inl hb)
          · rcases List.mem_cons.mp hr2 with he | hr2
            · rcases Prod.mk.injEq _ _ _ _ ▸ he with ⟨rfl, rfl⟩
              exact Or.inl (Or.inr ⟨hg, hgt, rfl, hl⟩)
            · exact Or.inr ⟨r2, hr2, hl⟩
      · simp at h
      · simp at h
    · rw [buildFlds] at h
      simp at h

theorem scanPure_ok {fld v : String} :
    ∀ {sub : List (String × FileData)} {acc : Rec},
      (∀ p ∈ chain sub acc, ∃ u, alookup fld p.2 = some (.str u)) →
      (∀ p ∈ sub, ∃ r, p.2 = FileData.json r) →
      ∃ L, scanPure sub acc fld v = .ok L ∧
        ∀ x, x ∈ L ↔ ∃ r, (x, r) ∈ chain sub acc ∧ alookup fld r = some (.str v) := by
  intro sub
  induction sub with
  | nil =>
    intro acc hstr hjson
    exact ⟨[], rfl, by simp [chain]⟩
  | cons q rest ih =>
    intro acc hstr hjson
    rcases q with ⟨fid, d⟩
    rcases hjson ⟨fid, d⟩ (List.mem_cons.mpr (Or.inl rfl)) with ⟨r, rfl⟩
    have hhead : ((fid, r ++ acc) : String × Rec) ∈ chain ((fid, FileData.json r) :: rest) acc :=
      by rw [chain]; exact List.mem_cons.mpr (Or.inl rfl)
    obtain ⟨u, hu⟩ := hstr _ hhead
    obtain ⟨L, hL, hmem⟩ := ih
      (fun p hp => hstr p (by rw [chain]; exact List.mem_cons.mpr (Or.inr hp)))
      (fun p hp => hjson p (List.mem_cons.mpr (Or.inr hp)))
    refine ⟨if u = v then fid :: L else L, ?_, ?_⟩
    · rw [scanPure, hu, hL]
    · intro x
      rw [chain]
      by_cases huv : u = v
      · subst huv
        rw [if_pos rfl]
        constructor
        · intro hx
          rcases List.mem_cons.mp hx with rfl | hx
          · exact ⟨r ++ acc, List.mem_cons.mpr (Or.inl rfl), hu⟩
          · obtain ⟨r2, hr2, hl⟩ := (hmem x).mp hx
            exact ⟨r2, List.mem_cons.mpr (Or.inr hr2), hl⟩
        · rintro ⟨r2, hr2, hl⟩
          rcases List.mem_cons.mp hr2 with he | hr2
          · injection he with he1 he2
            subst he1
            exact List.mem_cons.mpr (Or.inl rfl)
          · exact List.mem_cons.mpr (Or.inr ((hmem x).mpr ⟨r2, hr2, hl⟩))
      · rw [if_neg huv, hmem x]
        constructor
        · rintro ⟨r2, hr2, hl⟩
          exact ⟨r2, List.mem_cons.mpr (Or.inr hr2), hl⟩
        · rintro ⟨r2, hr2, hl⟩
          rcases List.mem_cons.mp hr2 with he | hr2
          · injection he with he1 he2
            subst he1
            subst he2
            rw [hu] at hl
            injection hl with hl2
            injection hl2 with hl3
            exact absurd hl3 huv
          · exact ⟨r2, hr2, hl⟩

/-! ### State projection lemmas -/

@[simp] theorem emit_rwLocks (e : Ev) (s : DB) : (emit e s).rwLocks = s.rwLocks := rfl
@[simp] theorem emit_fieldsToIndex (e : Ev) (s : DB) : (emit e s).fieldsToIndex = s.fieldsToIndex := rfl
@[simp] theorem emit_tagIndexes (e : Ev) (s : DB) : (emit e s).tagIndexes = s.tagIndexes := rfl
@[simp] theorem emit_fldIndexes (e : Ev) (s : DB) : (emit e s).fldIndexes = s.fldIndexes := rfl
@[simp] theorem emit_fsys (e : Ev) (s : DB) : (emit e s).fsys = s.fsys := rfl
@[simp] theorem emit_trace (e : Ev) (s : DB) : (emit e s).trace = s.trace ++ [e] := rfl

@[simp] theorem setTblFldIdx_rwLocks (tbl : String) (fi : FldIdx) (s : DB) :
    (setTblFldIdx tbl fi s).rwLocks = s.rwLocks := rfl
@[simp] theorem setTblFldIdx_fieldsToIndex (tbl : String) (fi : FldIdx) (s : DB) :
    (setTblFldIdx tbl fi s).fieldsToIndex = s.fieldsToIndex := rfl
@[simp] theorem setTblFldIdx_tagIndexes (tbl : String) (fi : FldIdx) (s : DB) :
    (setTblFldIdx tbl fi s).tagIndexes = s.tagIndexes := rfl
@[simp] theorem setTblFldIdx_fsys (tbl : String) (fi : FldIdx) (s : DB) :
    (setTblFldIdx tbl fi s).fsys = s.fsys := rfl
@[simp] theorem setTblFldIdx_trace (tbl : String) (fi : FldIdx) (s : DB) :
    (setTblFldIdx tbl fi s).trace = s.trace := rfl
@[simp] theorem setTblFldIdx_fldIndexes (tbl : String) (fi : FldIdx) (s : DB) :
    (setTblFldIdx tbl fi s).fldIndexes = aset tbl fi s.fldIndexes := rfl

@[simp] theorem tblFiles_emit (tbl : String) (e : Ev) (s : DB) :
    tblFiles tbl (emit e s) = tblFiles tbl s := rfl
@[simp] theorem tblFiles_setTblFldIdx (tbl tbl' : String) (fi : FldIdx) (s : DB) :
    tblFiles tbl (setTblFldIdx tbl' fi s) = tblFiles tbl s := rfl
@[simp] theorem dirIds_emit (tbl : String) (e : Ev) (s : DB) :
    dirIds tbl (emit e s) = dirIds tbl s := rfl
@[simp] theorem dirIds_setTblFldIdx (tbl tbl' : String) (fi : FldIdx) (s : DB) :
    dirIds tbl (setTblFldIdx tbl' fi s) = dirIds tbl s := rfl

@[simp] theorem clearTagIdx_rwLocks (tbl : String) (s : DB) :
    (clearTagIdx tbl s).rwLocks = s.rwLocks := rfl
@[simp] theorem clearTagIdx_fieldsToIndex (tbl : String) (s : DB) :
    (clearTagIdx tbl s).fieldsToIndex = s.fieldsToIndex := rfl
@[simp] theorem clearTagIdx_fldIndexes (tbl : String) (s : DB) :
    (clearTagIdx tbl s).fldIndexes = s.fldIndexes := rfl
@[simp] theorem clearTagIdx_fsys (tbl : String) (s : DB) :
    (clearTagIdx tbl s).fsys = s.fsys := rfl
@[simp] theorem clearTagIdx_trace (tbl : String) (s : DB) :
    (clearTagIdx tbl s).trace = s.trace := rfl
@[simp] theorem clearTagIdx_tagIndexes (tbl : String) (s : DB) :
    (clearTagIdx tbl s).tagIndexes = clearTI tbl s.tagIndexes := rfl
@[simp] theorem tblFiles_clearTagIdx (tbl tbl' : String) (s : DB) :
    tblFiles tbl (clearTagIdx tbl' s) = tblFiles tbl s := rfl
@[simp] theorem dirIds_clearTagIdx (tbl tbl' : String) (s : DB) :
    dirIds tbl (clearTagIdx tbl' s) = dirIds tbl s := rfl

theorem alookup_clearTI_ne {tbl t' : String} (ti : List (String × TagIdx))
    (h : ¬ t' = tbl) : alookup t' (clearTI tbl ti) = alookup t' ti := by
  induction ti with
  | nil => simp [clearTI]
  | cons p rest ih =>
    by_cases hp : p.1 = tbl
    · have ht' : ¬ t' = p.1 := fun he => h (he.trans hp)
      rw [clearTI, List.map_cons, if_pos hp, alookup_cons, alookup_cons]
      simp only [ht', if_false]
      exact ih
    · rw [clearTI, List.map_cons, if_neg hp, alookup_cons, alookup_cons]
      by_cases ht' : t' = p.1
      · simp [ht']
      · simp only [ht', if_false]
        exact ih

@[simp] theorem lockFree_nil : lockFree [] := by simp [lockFree]

theorem lockFree_cons {e : Ev} {l : List Ev} (he : isLockEv e = false) (hl : lockFree l) :
    lockFree (e :: l) := by
  intro x hx
  rcases List.mem_cons.mp hx with rfl | hx
  · exact he
  · exact hl x hx

theorem lockFree_append {l1 l2 : List Ev} (h1 : lockFree l1) (h2 : lockFree l2) :
    lockFree (l1 ++ l2) := by
  intro x hx
  rcases List.mem_append.mp hx with hx | hx
  · exact h1 x hx
  · exact h2 x hx

/-! ### State-threaded loops versus their pure mirrors -/

theorem nonTagsLoop_spec (tbl : String) (flds : List String) :
    ∀ (sub : List (String × FileData)) (recAcc : Rec) (s : DB) (fi0 : FldIdx),
      (∀ p ∈ sub, alookup p.1 (tblFiles tbl s) = some p.2) →
      alookup tbl s.fldIndexes = some fi0 →
      ∃ Δ, lockFree Δ ∧
        nonTagsLoop tbl flds (sub.map Prod.fst) recAcc s =
          ({ s with fldIndexes := aset tbl (buildFlds sub recAcc flds fi0).1 s.fldIndexes,
                    trace := s.trace ++ Δ },
           (buildFlds sub recAcc flds fi0).2) := by
  intro sub
  induction sub with
  | nil =>
    intro recAcc s fi0 _ hfi
    refine ⟨[], lockFree_nil, ?_⟩
    simp only [List.map_nil, nonTagsLoop, buildFlds, aset_self hfi, List.append_nil]
  | cons q rest ih =>
    intro recAcc s fi0 hlk hfi
    rcases q with ⟨fid, d⟩
    have hq : alookup fid (tblFiles tbl s) = some d := hlk _ (List.mem_cons.mpr (Or.inl rfl))
    have hfi0 : tblFldIdx tbl (emit (.fsRead tbl fid) s) = fi0 := by
      simp [tblFldIdx, hfi]
    rcases d with r | _
    · simp only [List.map_cons, nonTagsLoop, readFileData, hq, hfi0]
      rcases hid : idxRecFields fid (r ++ recAcc) flds fi0 with ⟨fi1, res1⟩
      rcases res1 with _ | e | msg
      · dsimp only
        obtain ⟨Δ, hΔ, heq⟩ := ih (r ++ recAcc) (setTblFldIdx tbl fi1 (emit (.fsRead tbl fid) s)) fi1
          (by intro p hp
              simp only [tblFiles_setTblFldIdx, tblFiles_emit]
              exact hlk p (List.mem_cons.mpr (Or.inr hp)))
          (by simp [setTblFldIdx])
        rw [heq, buildFlds, hid]
        refine ⟨.fsRead tbl fid :: Δ, lockFree_cons rfl hΔ, ?_⟩
        simp [setTblFldIdx, emit, aset_aset]
      · dsimp only
        rw [buildFlds, hid]
        refine ⟨[.fsRead tbl fid], lockFree_cons rfl lockFree_nil, ?_⟩
        simp [setTblFldIdx, emit]
      · dsimp only
        rw [buildFlds, hid]
        refine ⟨[.fsRead tbl fid], lockFree_cons rfl lockFree_nil, ?_⟩
        simp [setTblFldIdx, emit]
    · simp only [List.map_cons, nonTagsLoop, readFileData, hq]
      rw [buildFlds]
      refine ⟨[.fsRead tbl fid], lockFree_cons rfl lockFree_nil, ?_⟩
      simp [emit, aset_self hfi]

theorem initNonTagsIndexes_spec (tbl : String) (s : DB) (hnd : (dirIds tbl s).Nodup) :
    ∃ Δ, lockFree Δ ∧
      initNonTagsIndexes tbl s =
        ({ s with fldIndexes := aset tbl (fldRebuild tbl s).1 s.fldIndexes,
                  trace := s.trace ++ Δ },
         (fldRebuild tbl s).2) := by
  have hlk : ∀ p ∈ tblFiles tbl s, alookup p.1 (tblFiles tbl s) = some p.2 :=
    fun p hp => alookup_of_nodup_mem hnd hp
  obtain ⟨Δ, hΔ, heq⟩ := nonTagsLoop_spec tbl ((alookup tbl s.fieldsToIndex).getD [])
    (tblFiles tbl s) []
    (emit (.fsList tbl) (setTblFldIdx tbl (skeletonFldIdx ((alookup tbl s.fieldsToIndex).getD [])) s))
    (skeletonFldIdx ((alookup tbl s.fieldsToIndex).getD []))
    (by intro p hp
        simpa using hlk p hp)
    (by simp [setTblFldIdx])
  refine ⟨.fsList tbl :: Δ, lockFree_cons rfl hΔ, ?_⟩
  simp only [initNonTagsIndexes, fileIdsInDataDir]
  have hdir : dirIds tbl (setTblFldIdx tbl
      (skeletonFldIdx ((alookup tbl s.fieldsToIndex).getD [])) s) = (tblFiles tbl s).map Prod.fst :=
    rfl
  rw [hdir, heq, fldRebuild]
  simp [setTblFldIdx, emit, aset_aset]

theorem tagInsert_eq_bucketInsert (idx : TagIdx) (t fid : String) :
    tagInsert idx t fid = bucketInsert idx t fid := rfl

theorem tagRecLoop_ok_mem {fid : String} :
    ∀ {ts : List JElem} {idx idx' : TagIdx},
      tagRecLoop fid ts idx = (idx', .ok ()) →
      ∀ w x, x ∈ bucketOf idx' w ↔ x ∈ bucketOf idx w ∨ (x = fid ∧ JElem.str w ∈ ts) := by
  intro ts
  induction ts with
  | nil =>
    intro idx idx' h w x
    simp only [tagRecLoop, Prod.mk.injEq] at h
    simp [h.1]
  | cons t ts ih =>
    intro idx idx' h w x
    rcases t with t | _
    · rw [tagRecLoop] at h
      rw [ih h, tagInsert_eq_bucketInsert, bucketOf_bucketInsert]
      constructor
      · rintro ((hb | ⟨rfl, rfl⟩) | ⟨rfl, hm⟩)
        · exact Or.inl hb
        · exact Or.inr ⟨rfl, List.mem_cons.mpr (Or.inl rfl)⟩
        · exact Or.inr ⟨rfl, List.mem_cons.mpr (Or.inr hm)⟩
      · rintro (hb | ⟨rfl, hm⟩)
        · exact Or.inl (Or.inl hb)
        · rcases List.mem_cons.mp hm with he | hm
          · injection he with he1
            exact Or.inl (Or.inr ⟨he1, rfl⟩)
          · exact Or.inr ⟨rfl, hm⟩
    · rw [tagRecLoop] at h
      simp at h

theorem tagRecLoop_nodup {fid : String} :
    ∀ {ts : List JElem} {idx idx' : TagIdx} {res : RRes Unit},
      tagRecLoop fid ts idx = (idx', res) →
      (∀ p ∈ idx, p.2.Nodup) → ∀ p ∈ idx', p.2.Nodup := by
  intro ts
  induction ts with
  | nil =>
    intro idx idx' res h hw
    simp only [tagRecLoop, Prod.mk.injEq] at h
    exact h.1 ▸ hw
  | cons t ts ih =>
    intro idx idx' res h hw
    rcases t with t | _
    · rw [tagRecLoop] at h
      exact ih h (by rw [tagInsert_eq_bucketInsert]; exact bucketInsert_nodup _ _ hw)
    · rw [tagRecLoop] at h
      simp only [Prod.mk.injEq] at h
      exact h.1 ▸ hw

theorem buildTags_ok_mem :
    ∀ {sub : List (String × FileData)} {acc : Rec} {idx B : TagIdx},
      buildTags sub acc idx = (B, .ok ()) →
      ∀ w x, x ∈ bucketOf B w ↔ x ∈ bucketOf idx w ∨
        ∃ r ts, (x, r) ∈ chain sub acc ∧ alookup "tags" r = some (.arr ts) ∧ JElem.str w ∈ ts := by
  intro sub
  induction sub with
  | nil =>
    intro acc idx B h w x
    simp only [buildTags, Prod.mk.injEq] at h
    simp [h.1, chain]
  | cons q rest ih =>
    intro acc idx B h w x
    rcases q with ⟨fid, d⟩
    rcases d with r | _
    · rw [buildTags] at h
      rcases ht : alookup "tags" (r ++ acc) with _ | tv
      · rw [ht] at h
        simp at h
      · rcases tv with u | ts | _
        · rw [ht] at h
          simp at h
        · simp only [ht] at h
          rcases hloop : tagRecLoop fid ts idx with ⟨idx1, res1⟩
          simp only [hloop] at h
          rcases res1 with _ | e | msg
          · rw [ih h w x, tagRecLoop_ok_mem hloop w x]
            rw [chain]
            constructor
            · rintro ((hb | ⟨rfl, hm⟩) | ⟨r2, ts2, hr2, hl2, hm2⟩)
              · exact Or.inl hb
              · exact Or.inr ⟨r ++ acc, ts, List.mem_cons.mpr (Or.inl rfl), ht, hm⟩
              · exact Or.inr ⟨r2, ts2, List.mem_cons.mpr (Or.inr hr2), hl2, hm2⟩
            · rintro (hb | ⟨r2, ts2, hr2, hl2, hm2⟩)
              · exact Or.inl (Or.inl hb)
              · rcases List.mem_cons.mp hr2 with he | hr2
                · injection he with he1 he2
                  subst he1
                  subst he2
                  rw [ht] at hl2
                  injection hl2 with hl3
                  injection hl3 with hl4
                  exact Or.inl (Or.inr ⟨rfl, hl4 ▸ hm2⟩)
                · exact Or.inr ⟨r2, ts2, hr2, hl2, hm2⟩
          · simp at h
          · simp at h
        · rw [ht] at h
          simp at h
    · rw [buildTags] at h
      simp at h

theorem buildTags_nodup :
    ∀ {sub : List (String × FileData)} {acc : Rec} {idx B : TagIdx} {res : RRes Unit},
      buildTags sub acc idx = (B, res) →
      (∀ p ∈ idx, p.2.Nodup) → ∀ p ∈ B, p.2.Nodup := by
  intro sub
  induction sub with
  | nil =>
    intro acc idx B res h hw
    simp only [buildTags, Prod.mk.injEq] at h
    exact h.1 ▸ hw
  | cons q rest ih =>
    intro acc idx B res h hw
    rcases q with ⟨fid, d⟩
    rcases d with r | _
    · rw [buildTags] at h
      rcases ht : alookup "tags" (r ++ acc) with _ | tv
      · rw [ht] at h
        simp only [Prod.mk.injEq] at h
        exact h.1 ▸ hw
      · rcases tv with u | ts | _
        · rw [ht] at h
          simp only [Prod.mk.injEq] at h
          exact h.1 ▸ hw
        · simp only [ht] at h
          rcases hloop : tagRecLoop fid ts idx with ⟨idx1, res1⟩
          simp only [hloop] at h
          have hidx1 : ∀ p ∈ idx1, p.2.Nodup := tagRecLoop_nodup hloop hw
          rcases res1 with _ | e | msg
          · exact ih h hidx1
          · simp only [Prod.mk.injEq] at h
            exact h.1 ▸ hidx1
          · simp only [Prod.mk.injEq] at h
            exact h.1 ▸ hidx1
        · rw [ht] at h
          simp only [Prod.mk.injEq] at h
          exact h.1 ▸ hw
    · rw [buildTags] at h
      simp only [Prod.mk.injEq] at h
      exact h.1 ▸ hw

theorem tagsLoop_spec (tbl : String) :
    ∀ (sub : List (String × FileData)) (recAcc : Rec) (idx : TagIdx) (s : DB),
      (∀ p ∈ sub, alookup p.1 (tblFiles tbl s) = some p.2) →
      ∃ Δ, lockFree Δ ∧
        tagsLoop tbl (sub.map Prod.fst) recAcc idx s =
          ({ s with trace := s.trace ++ Δ }, buildTags sub recAcc idx) := by
  intro sub
  induction sub with
  | nil =>
    intro recAcc idx s _
    refine ⟨[], lockFree_nil, ?_⟩
    simp only [List.map_nil, tagsLoop, buildTags, List.append_nil]
  | cons q rest ih =>
    intro recAcc idx s hlk
    rcases q with ⟨fid, d⟩
    have hq : alookup fid (tblFiles tbl s) = some d := hlk _ (List.mem_cons.mpr (Or.inl rfl))
    rcases d with r | _
    · simp only [List.map_cons, tagsLoop, readFileData, hq]
      rcases ht : alookup "tags" (r ++ recAcc) with _ | tv
      · rw [buildTags]
        simp only [ht]
        exact ⟨[.fsRead tbl fid], lockFree_cons rfl lockFree_nil, by simp [emit]⟩
      · rcases tv with u | ts | _
        · rw [buildTags]
          simp only [ht]
          exact ⟨[.fsRead tbl fid], lockFree_cons rfl lockFree_nil, by simp [emit]⟩
        · rw [buildTags]
          simp only [ht]
          rcases hloop : tagRecLoop fid ts idx with ⟨idx1, res1⟩
          rcases res1 with _ | e | msg
          · dsimp only
            obtain ⟨Δ, hΔ, heq⟩ := ih (r ++ recAcc) idx1 (emit (.fsRead tbl fid) s)
              (by intro p hp
                  simp only [tblFiles_emit]
                  exact hlk p (List.mem_cons.mpr (Or.inr hp)))
            rw [heq]
            refine ⟨.fsRead tbl fid :: Δ, lockFree_cons rfl hΔ, ?_⟩
            simp [emit]
          · dsimp only
            exact ⟨[.fsRead tbl fid], lockFree_cons rfl lockFree_nil, by simp [emit]⟩
          · dsimp only
            exact ⟨[.fsRead tbl fid], lockFree_cons rfl lockFree_nil, by simp [emit]⟩
        · rw [buildTags]
          simp only [ht]
          exact ⟨[.fsRead tbl fid], lockFree_cons rfl lockFree_nil, by simp [emit]⟩
    · simp only [List.map_cons, tagsLoop, readFileData, hq]
      rw [buildTags]
      exact ⟨[.fsRead tbl fid], lockFree_cons rfl lockFree_nil, by simp [emit]⟩

theorem initTagsIndex_spec (tbl : String) (s : DB) (hnd : (dirIds tbl s).Nodup) :
    ∃ Δ, lockFree Δ ∧
      initTagsIndex tbl s =
        ({ s with
            tagIndexes :=
              match (tagRebuild tbl s).2 with
              | .ok _ => aset tbl (tagRebuild tbl s).1 (clearTI tbl s.tagIndexes)
              | .err _ => clearTI tbl s.tagIndexes
              | .panicked _ => clearTI tbl s.tagIndexes,
            trace := s.trace ++ Δ },
         (tagRebuild tbl s).2) := by
  have hlk : ∀ p ∈ tblFiles tbl s, alookup p.1 (tblFiles tbl s) = some p.2 :=
    fun p hp => alookup_of_nodup_mem hnd hp
  obtain ⟨Δ, hΔ, heq⟩ := tagsLoop_spec tbl (tblFiles tbl s) [] []
    (emit (.fsList tbl) (clearTagIdx tbl s))
    (by intro p hp
        simpa using hlk p hp)
  refine ⟨.fsList tbl :: Δ, lockFree_cons rfl hΔ, ?_⟩
  simp only [initTagsIndex, fileIdsInDataDir]
  have hdir : dirIds tbl (clearTagIdx tbl s) = (tblFiles tbl s).map Prod.fst := rfl
  rw [hdir, heq, tagRebuild]
  rcases hB : buildTags (tblFiles tbl s) [] [] with ⟨B, res⟩
  rcases res with _ | e | msg <;> simp [emit, clearTagIdx]

/-! ### Effect lemmas (no assumptions on the table state) -/

theorem nonTagsLoop_effects (tbl : String) (flds : List String) :
    ∀ (fids : List String) (recAcc : Rec) (s : DB),
      ∃ Δ, lockFree Δ ∧
        (nonTagsLoop tbl flds fids recAcc s).1.rwLocks = s.rwLocks ∧
        (nonTagsLoop tbl flds fids recAcc s).1.fieldsToIndex = s.fieldsToIndex ∧
        (nonTagsLoop tbl flds fids recAcc s).1.tagIndexes = s.tagIndexes ∧
        (nonTagsLoop tbl flds fids recAcc s).1.fsys = s.fsys ∧
        (nonTagsLoop tbl flds fids recAcc s).1.trace = s.trace ++ Δ ∧
        ∀ t', ¬ t' = tbl →
          alookup t' (nonTagsLoop tbl flds fids recAcc s).1.fldIndexes =
            alookup t' s.fldIndexes := by
  intro fids
  induction fids with
  | nil =>
    intro recAcc s
    exact ⟨[], lockFree_nil, rfl, rfl, rfl, rfl, by simp [nonTagsLoop], fun _ _ => rfl⟩
  | cons fid rest ih =>
    intro recAcc s
    rw [nonTagsLoop, readFileData]
    rcases hX : alookup fid (tblFiles tbl s) with _ | d
    · exact ⟨[.fsRead tbl fid], lockFree_cons rfl lockFree_nil, rfl, rfl, rfl, rfl,
        by simp [emit], fun _ _ => rfl⟩
    · rcases d with r | _
      · rcases hid : idxRecFields fid (r ++ recAcc) flds
            (tblFldIdx tbl (emit (.fsRead tbl fid) s)) with ⟨fi1, res1⟩
        simp only [hid]
        rcases res1 with _ | e | msg
        · dsimp only
          obtain ⟨Δ, hΔ, h1, h2, h3, h4, h5, h6⟩ :=
            ih (r ++ recAcc) (setTblFldIdx tbl fi1 (emit (.fsRead tbl fid) s))
          refine ⟨.fsRead tbl fid :: Δ, lockFree_cons rfl hΔ, ?_, ?_, ?_, ?_, ?_, ?_⟩
          · rw [h1]; rfl
          · rw [h2]; rfl
          · rw [h3]; rfl
          · rw [h4]; rfl
          · rw [h5]; simp [setTblFldIdx, emit]
          · intro t' ht'
            rw [h6 t' ht']
            simp [setTblFldIdx, alookup_aset_ne _ _ ht']
        · dsimp only
          exact ⟨[.fsRead tbl fid], lockFree_cons rfl lockFree_nil, rfl, rfl, rfl, rfl,
            by simp [setTblFldIdx, emit],
            fun t' ht' => by simp [setTblFldIdx, alookup_aset_ne _ _ ht']⟩
        · dsimp only
          exact ⟨[.fsRead tbl fid], lockFree_cons rfl lockFree_nil, rfl, rfl, rfl, rfl,
            by simp [setTblFldIdx, emit],
            fun t' ht' => by simp [setTblFldIdx, alookup_aset_ne _ _ ht']⟩
      · exact ⟨[.fsRead tbl fid], lockFree_cons rfl lockFree_nil, rfl, rfl, rfl, rfl,
          by simp [emit], fun _ _ => rfl⟩

theorem tagsLoop_effects (tbl : String) :
    ∀ (fids : List String) (recAcc : Rec) (idx : TagIdx) (s : DB),
      ∃ Δ, lockFree Δ ∧
        (tagsLoop tbl fids recAcc idx s).1 = { s with trace := s.trace ++ Δ } := by
  intro fids
  induction fids with
  | nil =>
    intro recAcc idx s
    refine ⟨[], lockFree_nil, ?_⟩
    simp [tagsLoop]
  | cons fid rest ih =>
    intro recAcc idx s
    rw [tagsLoop, readFileData]
    rcases hX : alookup fid (tblFiles tbl s) with _ | d
    · exact ⟨[.fsRead tbl fid], lockFree_cons rfl lockFree_nil, by simp [emit]⟩
    · rcases d with r | _
      · rcases ht : alookup "tags" (r ++ recAcc) with _ | tv
        · try simp only [ht]
          exact ⟨[.fsRead tbl fid], lockFree_cons rfl lockFree_nil, by simp [emit]⟩
        · rcases tv with u | ts | _
          · try simp only [ht]
            exact ⟨[.fsRead tbl fid], lockFree_cons rfl lockFree_nil, by simp [emit]⟩
          · try simp only [ht]
            rcases hloop : tagRecLoop fid ts idx with ⟨idx1, res1⟩
            try simp only [hloop]
            rcases res1 with _ | e | msg
            · dsimp only
              obtain ⟨Δ, hΔ, heq⟩ := ih (r ++ recAcc) idx1 (emit (.fsRead tbl fid) s)
              refine ⟨.fsRead tbl fid :: Δ, lockFree_cons rfl hΔ, ?_⟩
              rw [heq]
              simp [emit]
            · exact ⟨[.fsRead tbl fid], lockFree_cons rfl lockFree_nil, by simp [emit]⟩
            · exact ⟨[.fsRead tbl fid], lockFree_cons rfl lockFree_nil, by simp [emit]⟩
          · try simp only [ht]
            exact ⟨[.fsRead tbl fid], lockFree_cons rfl lockFree_nil, by simp [emit]⟩
      · exact ⟨[.fsRead tbl fid], lockFree_cons rfl lockFree_nil, by simp [emit]⟩

theorem initNonTagsIndexes_effects (tbl : String) (s : DB) :
    ∃ Δ, lockFree Δ ∧
      (initNonTagsIndexes tbl s).1.rwLocks = s.rwLocks ∧
      (initNonTagsIndexes tbl s).1.fieldsToIndex = s.fieldsToIndex ∧
      (initNonTagsIndexes tbl s).1.tagIndexes = s.tagIndexes ∧
      (initNonTagsIndexes tbl s).1.fsys = s.fsys ∧
      (initNonTagsIndexes tbl s).1.trace = s.trace ++ Δ ∧
      ∀ t', ¬ t' = tbl →
        alookup t' (initNonTagsIndexes tbl s).1.fldIndexes = alookup t' s.fldIndexes := by
  rw [initNonTagsIndexes]
  simp only [fileIdsInDataDir]
  obtain ⟨Δ, hΔ, h1, h2, h3, h4, h5, h6⟩ :=
    nonTagsLoop_effects tbl ((alookup tbl s.fieldsToIndex).getD [])
      (dirIds tbl
        (setTblFldIdx tbl (skeletonFldIdx ((alookup tbl s.fieldsToIndex).getD [])) s))
      []
      (emit (.fsList tbl)
        (setTblFldIdx tbl (skeletonFldIdx ((alookup tbl s.fieldsToIndex).getD [])) s))
  refine ⟨.fsList tbl :: Δ, lockFree_cons rfl hΔ, ?_, ?_, ?_, ?_, ?_, ?_⟩
  · rw [h1]; rfl
  · rw [h2]; rfl
  · rw [h3]; rfl
  · rw [h4]; rfl
  · rw [h5]; simp [setTblFldIdx, emit]
  · intro t' ht'
    rw [h6 t' ht']
    simp [setTblFldIdx, alookup_aset_ne _ _ ht']

theorem initTagsIndex_effects (tbl : String) (s : DB) :
    ∃ Δ, lockFree Δ ∧
      (initTagsIndex tbl s).1.rwLocks = s.rwLocks ∧
      (initTagsIndex tbl s).1.fieldsToIndex = s.fieldsToIndex ∧
      (initTagsIndex tbl s).1.fldIndexes = s.fldIndexes ∧
      (initTagsIndex tbl s).1.fsys = s.fsys ∧
      (initTagsIndex tbl s).1.trace = s.trace ++ Δ ∧
      ∀ t', ¬ t' = tbl →
        alookup t' (initTagsIndex tbl s).1.tagIndexes = alookup t' s.tagIndexes := by
  obtain ⟨Δ, hΔ, heq⟩ := tagsLoop_effects tbl (dirIds tbl (clearTagIdx tbl s)) [] []
    (emit (.fsList tbl) (clearTagIdx tbl s))
  rw [initTagsIndex]
  simp only [fileIdsInDataDir]
  rcases hL : tagsLoop tbl (dirIds tbl (clearTagIdx tbl s)) [] []
      (emit (.fsList tbl) (clearTagIdx tbl s)) with ⟨s1, idx1, res1⟩
  try simp only [hL]
  rw [hL] at heq
  dsimp only at heq
  subst heq
  rcases res1 with _ | e | msg
  · refine ⟨.fsList tbl :: Δ, lockFree_cons rfl hΔ, rfl, rfl, rfl, rfl, ?_, ?_⟩
    · simp [emit, clearTagIdx]
    · intro t' ht'
      simp only [emit_tagIndexes, clearTagIdx_tagIndexes]
      rw [alookup_aset_ne _ _ ht', alookup_clearTI_ne _ ht']
  · refine ⟨.fsList tbl :: Δ, lockFree_cons rfl hΔ, rfl, rfl, rfl, rfl, ?_, ?_⟩
    · simp [emit, clearTagIdx]
    · intro t' ht'
      simp only [emit_tagIndexes, clearTagIdx_tagIndexes]
      rw [alookup_clearTI_ne _ ht']
  · refine ⟨.fsList tbl :: Δ, lockFree_cons rfl hΔ, rfl, rfl, rfl, rfl, ?_, ?_⟩
    · simp [emit, clearTagIdx]
    · intro t' ht'
      simp only [emit_tagIndexes, clearTagIdx_tagIndexes]
      rw [alookup_clearTI_ne _ ht']

theorem initTblIndexes_effects (tbl : String) (s : DB) :
    ∃ Δ, lockFree Δ ∧
      (initTblIndexes tbl s).1.rwLocks = s.rwLocks ∧
      (initTblIndexes tbl s).1.fieldsToIndex = s.fieldsToIndex ∧
      (initTblIndexes tbl s).1.fsys = s.fsys ∧
      (initTblIndexes tbl s).1.trace = s.trace ++ Δ ∧
      (∀ t', ¬ t' = tbl →
        alookup t' (initTblIndexes tbl s).1.fldIndexes = alookup t' s.fldIndexes) ∧
      (∀ t', ¬ t' = tbl →
        alookup t' (initTblIndexes tbl s).1.tagIndexes = alookup t' s.tagIndexes) := by
  rw [initTblIndexes]
  rcases hC : alookup tbl s.fieldsToIndex with _ | fldNames
  · exact ⟨[], lockFree_nil, rfl, rfl, rfl, by simp, fun _ _ => rfl, fun _ _ => rfl⟩
  · obtain ⟨Δ1, hΔ1, g1, g2, g3, g4, g5, g6⟩ := initNonTagsIndexes_effects tbl s
    rcases hN : initNonTagsIndexes tbl s with ⟨s1, res1⟩
    rw [hN] at g1 g2 g3 g4 g5 g6
    dsimp only at g1 g2 g3 g4 g5 g6
    try simp only [hN]
    rcases res1 with _ | e | msg
    · by_cases htags : stringInSlice "tags" fldNames
      · simp only [htags, if_true]
        obtain ⟨Δ2, hΔ2, k1, k2, k3, k4, k5, k6⟩ := initTagsIndex_effects tbl s1
        rcases hT : initTagsIndex tbl s1 with ⟨s2, res2⟩
        rw [hT] at k1 k2 k3 k4 k5 k6
        dsimp only at k1 k2 k3 k4 k5 k6
        try simp only [hT]
        rcases res2 with _ | e2 | msg2 <;>
          refine ⟨Δ1 ++ Δ2, lockFree_append hΔ1 hΔ2, ?_, ?_, ?_, ?_, ?_, ?_⟩ <;>
          dsimp only
        · exact k1.trans g1
        · exact k2.trans g2
        · exact k4.trans g4
        · rw [k5, g5, List.append_assoc]
        · intro t' ht'
          rw [k3]
          exact g6 t' ht'
        · intro t' ht'
          rw [k6 t' ht']
          exact congrArg (alookup t') g3
        · exact k1.trans g1
        · exact k2.trans g2
        · exact k4.trans g4
        · rw [k5, g5, List.append_assoc]
        · intro t' ht'
          rw [k3]
          exact g6 t' ht'
        · intro t' ht'
          rw [k6 t' ht']
          exact congrArg (alookup t') g3
        · exact k1.trans g1
        · exact k2.trans g2
        · exact k4.trans g4
        · rw [k5, g5, List.append_assoc]
        · intro t' ht'
          rw [k3]
          exact g6 t' ht'
        · intro t' ht'
          rw [k6 t' ht']
          exact congrArg (alookup t') g3
      · simp only [htags, if_false]
        exact ⟨Δ1, hΔ1, g1, g2, g4, g5, g6,
          fun t' ht' => congrArg (alookup t') g3⟩
    · exact ⟨Δ1, hΔ1, g1, g2, g4, g5, g6, fun t' ht' => congrArg (alookup t') g3⟩
    · exact ⟨Δ1, hΔ1, g1, g2, g4, g5, g6, fun t' ht' => congrArg (alookup t') g3⟩

theorem scanFieldLoop_effects (tbl fld v : String) :
    ∀ (fids : List String) (recAcc : Rec) (acc : List String) (s : DB),
      ∃ Δ, lockFree Δ ∧
        (scanFieldLoop tbl fld v fids recAcc acc s).1 = { s with trace := s.trace ++ Δ } := by
  intro fids
  induction fids with
  | nil =>
    intro recAcc acc s
    refine ⟨[], lockFree_nil, ?_⟩
    simp [scanFieldLoop]
  | cons fid rest ih =>
    intro recAcc acc s
    rw [scanFieldLoop, readFileData]
    rcases hX : alookup fid (tblFiles tbl s) with _ | d
    · exact ⟨[.fsRead tbl fid], lockFree_cons rfl lockFree_nil, by simp [emit]⟩
    · rcases d with r | _
      · rcases hf : alookup fld (r ++ recAcc) with _ | u
        · try simp only [hf]
          exact ⟨[.fsRead tbl fid], lockFree_cons rfl lockFree_nil, by simp [emit]⟩
        · rcases u with u | ts | _
          · try simp only [hf]
            obtain ⟨Δ, hΔ, heq⟩ :=
              ih (r ++ recAcc) (if u = v then acc ++ [fid] else acc) (emit (.fsRead tbl fid) s)
            refine ⟨.fsRead tbl fid :: Δ, lockFree_cons rfl hΔ, ?_⟩
            rw [heq]
            simp [emit]
          · try simp only [hf]
            exact ⟨[.fsRead tbl fid], lockFree_cons rfl lockFree_nil, by simp [emit]⟩
          · try simp only [hf]
            exact ⟨[.fsRead tbl fid], lockFree_cons rfl lockFree_nil, by simp [emit]⟩
      · exact ⟨[.fsRead tbl fid], lockFree_cons rfl lockFree_nil, by simp [emit]⟩

theorem scanFieldLoop_spec (tbl fld v : String) :
    ∀ (sub : List (String × FileData)) (recAcc : Rec) (acc : List String) (s : DB),
      (∀ p ∈ sub, alookup p.1 (tblFiles tbl s) = some p.2) →
      ∃ Δ, lockFree Δ ∧
        scanFieldLoop tbl fld v (sub.map Prod.fst) recAcc acc s =
          ({ s with trace := s.trace ++ Δ },
            match scanPure sub recAcc fld v with
            | .ok L => .ok (acc ++ L)
            | .err e => .err e
            | .panicked msg => .panicked msg) := by
  intro sub
  induction sub with
  | nil =>
    intro recAcc acc s _
    refine ⟨[], lockFree_nil, ?_⟩
    simp [scanFieldLoop, scanPure]
  | cons q rest ih =>
    intro recAcc acc s hlk
    rcases q with ⟨fid, d⟩
    have hq : alookup fid (tblFiles tbl s) = some d := hlk _ (List.mem_cons.mpr (Or.inl rfl))
    rcases d with r | _
    · simp only [List.map_cons, scanFieldLoop, readFileData, hq]
      rw [scanPure]
      rcases hf : alookup fld (r ++ recAcc) with _ | u
      · exact ⟨[.fsRead tbl fid], lockFree_cons rfl lockFree_nil, by simp [emit]⟩
      · rcases u with u | ts | _
        · obtain ⟨Δ, hΔ, heq⟩ :=
            ih (r ++ recAcc) (if u = v then acc ++ [fid] else acc) (emit (.fsRead tbl fid) s)
            (by intro p hp
                simp only [tblFiles_emit]
                exact hlk p (List.mem_cons.mpr (Or.inr hp)))
          try simp only [hf]
          rw [heq]
          refine ⟨.fsRead tbl fid :: Δ, lockFree_cons rfl hΔ, ?_⟩
          rcases hP : scanPure rest (r ++ recAcc) fld v with L | e | msg
          · by_cases huv : u = v
            · simp [emit, huv, hP]
            · simp [emit, huv, hP]
          · simp [emit, hP]
          · simp [emit, hP]
        · exact ⟨[.fsRead tbl fid], lockFree_cons rfl lockFree_nil, by simp [emit]⟩
        · exact ⟨[.fsRead tbl fid], lockFree_cons rfl lockFree_nil, by simp [emit]⟩
    · simp only [List.map_cons, scanFieldLoop, readFileData, hq]
      rw [scanPure]
      exact ⟨[.fsRead tbl fid], lockFree_cons rfl lockFree_nil, by simp [emit]⟩

/-! ### Small step-description lemmas for the public operations -/

theorem nextAvailableFileId_state (tbl : String) (s : DB) :
    (nextAvailableFileId tbl s).1 = emit (.fsList tbl) s := by
  rw [nextAvailableFileId]
  rcases collectInts (fileIdsInDataDir tbl s).2 with l | e | m <;> rfl

theorem writeFile_proj (tbl fid : String) (d : FileData) (s : DB) :
    (writeFile tbl fid d s).1.rwLocks = s.rwLocks ∧
    (writeFile tbl fid d s).1.fieldsToIndex = s.fieldsToIndex ∧
    (writeFile tbl fid d s).1.tagIndexes = s.tagIndexes ∧
    (writeFile tbl fid d s).1.fldIndexes = s.fldIndexes ∧
    (writeFile tbl fid d s).1.trace = s.trace ++ [.fsWrite tbl fid] := by
  rw [writeFile]
  rcases hF : alookup tbl s.fsys with _ | files <;> simp [hF, emit]

theorem removeFile_proj (tbl fid : String) (s : DB) :
    (removeFile tbl fid s).1.rwLocks = s.rwLocks ∧
    (removeFile tbl fid s).1.fieldsToIndex = s.fieldsToIndex ∧
    (removeFile tbl fid s).1.tagIndexes = s.tagIndexes ∧
    (removeFile tbl fid s).1.fldIndexes = s.fldIndexes ∧
    (removeFile tbl fid s).1.trace = s.trace ++ [.fsRemove tbl fid] := by
  rw [removeFile]
  rcases hF : alookup tbl s.fsys with _ | files
  · simp [hF, emit]
  · rcases hf : alookup fid files with _ | d <;> simp [hF, hf, emit]

/-! ### Claim theorems -/

/-- C10: FindAllIds never returns an error.  For every known table the call
returns a nil error together with the directory listing, and when the table's
directory is missing (the `ReadDir` failure is discarded at db.go:328) the
result is the empty id list rather than a NotFound error.  (For a table name
with no lock entry the call dereferences a nil mutex — undefined behaviour per
the specification — and never returns at all, so it is outside this claim.) -/
theorem C10_findAllIds_never_errors (s : DB) (tbl : String) (htbl : tbl ∈ s.rwLocks) :
    FindAllIds tbl s =
      ({ s with trace := s.trace ++ [.rlock tbl, .fsList tbl, .runlock tbl] },
        .ok (dirIds tbl s)) ∧
    (alookup tbl s.fsys = none → dirIds tbl s = []) := by
  constructor
  · rw [FindAllIds, rLock, if_pos htbl]
    simp [fileIdsInDataDir, rUnlock, emit, dirIds, tblFiles]
  · intro h
    simp [dirIds, tblFiles, h]

/-- Witness for C10 at a concrete store whose table directory is missing from
the file system: the call still returns a nil error and an empty listing. -/
theorem C10_witness :
    ("t" ∈ (DB.mk ["t"] [] [] [] [] []).rwLocks) ∧
    FindAllIds "t" (DB.mk ["t"] [] [] [] [] []) =
      ({ DB.mk ["t"] [] [] [] [] [] with
          trace := [.rlock "t", .fsList "t", .runlock "t"] },
        .ok (dirIds "t" (DB.mk ["t"] [] [] [] [] []))) ∧
    dirIds "t" (DB.mk ["t"] [] [] [] [] []) = [] :=
  ⟨by decide,
   (C10_findAllIds_never_errors (DB.mk ["t"] [] [] [] [] []) "t" (by decide)).1,
   (C10_findAllIds_never_errors (DB.mk ["t"] [] [] [] [] []) "t" (by decide)).2 (by decide)⟩

/-- C5: FindFirstIdForField surfaces a distinct no-match outcome rather than
silently returning an empty value: it is `results[0]` of FindAllIdsForField's
result, which for an empty result is the index-out-of-range runtime failure
(db.go:121), and for a non-empty result is its first id; errors propagate
unmodified. -/
theorem C5_findFirst_no_match_distinct (s : DB) (tbl fld v : String) :
    FindFirstIdForField tbl fld v s =
      ((FindAllIdsForField tbl fld v s).1,
        match (FindAllIdsForField tbl fld v s).2 with
        | .ok [] => .panicked "index out of range"
        | .ok (x :: _) => .ok x
        | .err e => .err e
        | .panicked msg => .panicked msg) := by
  rw [FindFirstIdForField]
  rcases h : FindAllIdsForField tbl fld v s with ⟨s1, res⟩
  rcases res with L | e | msg
  · rcases L with _ | ⟨x, L⟩ <;> rfl
  · rfl
  · rfl

/-- C7 counterexample: Update with the unparseable id "x" on a known table
does return the `Atoi` error, but only after acquiring (and then releasing)
the table's write lock — `db.rwLocks[tblName].Lock()` at db.go:255 precedes
the `strconv.Atoi` check at db.go:259 — so the claim's "before touching the
table's lock" is false at this input. -/
theorem C7_counterexample :
    (Update "posts" [] "x" dbPosts).2 = .err (.atoiErr "x") ∧
    Ev.wlock "posts" ∈ (Update "posts" [] "x" dbPosts).1.trace := by decide

/-- C7 amended: on an id that does not parse as an integer, Update returns the
`Atoi` error and leaves the files and both indexes unchanged, but it acquires
and releases the table's write lock first (its trace is exactly the lock
acquire/release pair); only Delete validates the id before the lock and
returns with the store completely untouched. -/
theorem C7_amended_update_validation (s : DB) (tbl : String) (rec : Rec) (fid : String)
    (htbl : tbl ∈ s.rwLocks) (hbad : goAtoi fid = none) :
    Update tbl rec fid s =
      ({ s with trace := s.trace ++ [.wlock tbl, .wunlock tbl] }, .err (.atoiErr fid)) ∧
    Delete tbl fid s = (s, .err (.atoiErr fid)) := by
  constructor
  · rw [Update, wLock, if_pos htbl]
    simp [hbad, wUnlock, emit]
  · rw [Delete]
    simp [hbad]

/-- Witness for C7's amended claim at a concrete store and id. -/
theorem C7_amended_witness :
    ("posts" ∈ dbPosts.rwLocks) ∧ goAtoi "x" = none ∧
    (Update "posts" [] "x" dbPosts =
      ({ dbPosts with trace := [.wlock "posts", .wunlock "posts"] },
        .err (.atoiErr "x")) ∧
     Delete "posts" "x" dbPosts = (dbPosts, .err (.atoiErr "x"))) :=
  ⟨by decide, by decide,
   C7_amended_update_validation dbPosts "posts" [] "x" (by decide) (by decide)⟩

/-- C1 is violated by the code: a successful mutation can leave the tag index
not reflecting the files.  Here record "2" is `{}` — its file decodes with no
"tags" attribute — yet after a successful `Update` it sits in tag "a"'s
bucket, because the scan loops of both index builders unmarshal every file
into one shared `rec` map (db.go:361,420) and `json.Unmarshal` keeps existing
entries, so record "1"'s tags leak into record "2"'s decode. -/
theorem C1_index_reflects_files_violated :
    (Update "t" [] "2" dbLeak).2 = .ok () ∧
    alookup "2" (tblFiles "t" (Update "t" [] "2" dbLeak).1) = some (.json []) ∧
    alookup "tags" ([] : Rec) = none ∧
    alookup "a" (tblTagIdx "t" (Update "t" [] "2" dbLeak).1) = some ["1", "2"] := by
  decide

/-- C6 is violated by the code: a failure of the tag-index rebuild does not
come back to Create's caller as that error.  Here record "1"'s "tags"
attribute is a string, so the rebuild's `rec["tags"].([]interface{})`
assertion (db.go:443) fails: Create panics instead of returning an error,
with the new file "2" already persisted.  (Had initTagsIndex returned an
error instead, db.go:478 discards its return value — `err` is never
reassigned — so Create would return success.) -/
theorem C6_create_error_propagation_violated :
    (Create "t" [("tags", .arr [.str "b"])] dbBadTags).2 = .panicked "interface conversion" ∧
    alookup "2" (tblFiles "t" (Create "t" [("tags", .arr [.str "b"])] dbBadTags).1) =
      some (.json [("tags", .arr [.str "b"])]) := by
  decide

theorem Create_effects (tbl : String) (rec : Rec) (s : DB) (htbl : tbl ∈ s.rwLocks) :
    ∃ mid, lockFree mid ∧
      (Create tbl rec s).1.trace = s.trace ++ [.wlock tbl] ++ mid ++ [.wunlock tbl] ∧
      (∀ t', ¬ t' = tbl →
        alookup t' (Create tbl rec s).1.fldIndexes = alookup t' s.fldIndexes) ∧
      (∀ t', ¬ t' = tbl →
        alookup t' (Create tbl rec s).1.tagIndexes = alookup t' s.tagIndexes) := by
  rw [Create, wLock, if_pos htbl]
  rcases hNA : nextAvailableFileId tbl (emit (.wlock tbl) s) with ⟨s1, res1⟩
  have hs1 : s1 = emit (.fsList tbl) (emit (.wlock tbl) s) := by
    have h := nextAvailableFileId_state tbl (emit (.wlock tbl) s)
    rw [hNA] at h
    exact h
  subst hs1
  try simp only [hNA]
  rcases res1 with fid | e | msg
  · dsimp only
    rcases hW : writeFile tbl fid (.json rec) (emit (.fsList tbl) (emit (.wlock tbl) s))
      with ⟨s2, res2⟩
    obtain ⟨w1, w2, w3, w4, w5⟩ :=
      writeFile_proj tbl fid (.json rec) (emit (.fsList tbl) (emit (.wlock tbl) s))
    rw [hW] at w1 w2 w3 w4 w5
    dsimp only at w1 w2 w3 w4 w5
    try simp only [hW]
    rcases res2 with _ | e | msg
    · dsimp only
      obtain ⟨Δ, hΔ, e1, e2, e3, e4, eF, eT⟩ := initTblIndexes_effects tbl s2
      rcases hI : initTblIndexes tbl s2 with ⟨s3, res3⟩
      rw [hI] at e1 e2 e3 e4 eF eT
      dsimp only at e1 e2 e3 e4 eF eT
      have hmid : lockFree ([.fsList tbl, .fsWrite tbl fid] ++ Δ) :=
        lockFree_append (lockFree_cons rfl (lockFree_cons rfl lockFree_nil)) hΔ
      have htr : (wUnlock tbl s3).trace =
          s.trace ++ [.wlock tbl] ++ ([.fsList tbl, .fsWrite tbl fid] ++ Δ) ++ [.wunlock tbl] := by
        rw [wUnlock, emit_trace, e4, w5]
        simp [emit]
      have hF : ∀ t', ¬ t' = tbl →
          alookup t' (wUnlock tbl s3).fldIndexes = alookup t' s.fldIndexes := by
        intro t' ht'
        rw [wUnlock, emit_fldIndexes, eF t' ht', w4]
        rfl
      have hT : ∀ t', ¬ t' = tbl →
          alookup t' (wUnlock tbl s3).tagIndexes = alookup t' s.tagIndexes := by
        intro t' ht'
        rw [wUnlock, emit_tagIndexes, eT t' ht', w3]
        rfl
      rcases res3 with _ | e | msg <;>
        exact ⟨[.fsList tbl, .fsWrite tbl fid] ++ Δ, hmid, htr, hF, hT⟩
    · dsimp only
      refine ⟨[.fsList tbl, .fsWrite tbl fid],
        lockFree_cons rfl (lockFree_cons rfl lockFree_nil), ?_, ?_, ?_⟩
      · rw [wUnlock, emit_trace, w5]
        simp [emit]
      · intro t' ht'
        rw [wUnlock, emit_fldIndexes, w4]
        rfl
      · intro t' ht'
        rw [wUnlock, emit_tagIndexes, w3]
        rfl
    · dsimp only
      refine ⟨[.fsList tbl, .fsWrite tbl fid],
        lockFree_cons rfl (lockFree_cons rfl lockFree_nil), ?_, ?_, ?_⟩
      · rw [wUnlock, emit_trace, w5]
        simp [emit]
      · intro t' ht'
        rw [wUnlock, emit_fldIndexes, w4]
        rfl
      · intro t' ht'
        rw [wUnlock, emit_tagIndexes, w3]
        rfl
  · dsimp only
    refine ⟨[.fsList tbl], lockFree_cons rfl lockFree_nil, ?_, fun _ _ => rfl, fun _ _ => rfl⟩
    rw [wUnlock]
    simp [emit]
  · dsimp only
    refine ⟨[.fsList tbl], lockFree_cons rfl lockFree_nil, ?_, fun _ _ => rfl, fun _ _ => rfl⟩
    rw [wUnlock]
    simp [emit]

theorem Update_effects (tbl : String) (rec : Rec) (fid : String) (s : DB)
    (htbl : tbl ∈ s.rwLocks) :
    ∃ mid, lockFree mid ∧
      (Update tbl rec fid s).1.trace = s.trace ++ [.wlock tbl] ++ mid ++ [.wunlock tbl] ∧
      (∀ t', ¬ t' = tbl →
        alookup t' (Update tbl rec fid s).1.fldIndexes = alookup t' s.fldIndexes) ∧
      (∀ t', ¬ t' = tbl →
        alookup t' (Update tbl rec fid s).1.tagIndexes = alookup t' s.tagIndexes) := by
  rw [Update, wLock, if_pos htbl]
  rcases hA : goAtoi fid with _ | n
  · try simp only [hA]
    refine ⟨[], lockFree_nil, ?_, fun _ _ => rfl, fun _ _ => rfl⟩
    rw [wUnlock]
    simp [emit]
  · try simp only [hA]
    rcases hW : writeFile tbl fid (.json rec) (emit (.wlock tbl) s) with ⟨s2, res2⟩
    obtain ⟨w1, w2, w3, w4, w5⟩ := writeFile_proj tbl fid (.json rec) (emit (.wlock tbl) s)
    rw [hW] at w1 w2 w3 w4 w5
    dsimp only at w1 w2 w3 w4 w5
    try simp only [hW]
    rcases res2 with _ | e | msg
    · dsimp only
      obtain ⟨Δ, hΔ, e1, e2, e3, e4, eF, eT⟩ := initTblIndexes_effects tbl s2
      rcases hI : initTblIndexes tbl s2 with ⟨s3, res3⟩
      rw [hI] at e1 e2 e3 e4 eF eT
      dsimp only at e1 e2 e3 e4 eF eT
      have hmid : lockFree ([.fsWrite tbl fid] ++ Δ) :=
        lockFree_append (lockFree_cons rfl lockFree_nil) hΔ
      have htr : (wUnlock tbl s3).trace =
          s.trace ++ [.wlock tbl] ++ ([.fsWrite tbl fid] ++ Δ) ++ [.wunlock tbl] := by
        rw [wUnlock, emit_trace, e4, w5]
        simp [emit]
      have hF : ∀ t', ¬ t' = tbl →
          alookup t' (wUnlock tbl s3).fldIndexes = alookup t' s.fldIndexes := by
        intro t' ht'
        rw [wUnlock, emit_fldIndexes, eF t' ht', w4]
        rfl
      have hT : ∀ t', ¬ t' = tbl →
          alookup t' (wUnlock tbl s3).tagIndexes = alookup t' s.tagIndexes := by
        intro t' ht'
        rw [wUnlock, emit_tagIndexes, eT t' ht', w3]
        rfl
      rcases res3 with _ | e | msg <;>
        exact ⟨[.fsWrite tbl fid] ++ Δ, hmid, htr, hF, hT⟩
    · dsimp only
      refine ⟨[.fsWrite tbl fid], lockFree_cons rfl lockFree_nil, ?_, ?_, ?_⟩
      · rw [wUnlock, emit_trace, w5]
        simp [emit]
      · intro t' ht'
        rw [wUnlock, emit_fldIndexes, w4]
        rfl
      · intro t' ht'
        rw [wUnlock, emit_tagIndexes, w3]
        rfl
    · dsimp only
      refine ⟨[.fsWrite tbl fid], lockFree_cons rfl lockFree_nil, ?_, ?_, ?_⟩
      · rw [wUnlock, emit_trace, w5]
        simp [emit]
      · intro t' ht'
        rw [wUnlock, emit_fldIndexes, w4]
        rfl
      · intro t' ht'
        rw [wUnlock, emit_tagIndexes, w3]
        rfl

theorem Delete_effects (tbl : String) (fid : String) (s : DB)
    (htbl : tbl ∈ s.rwLocks) (n : Int) (hA : goAtoi fid = some n) :
    ∃ mid, lockFree mid ∧
      (Delete tbl fid s).1.trace = s.trace ++ [.wlock tbl] ++ mid ++ [.wunlock tbl] ∧
      (∀ t', ¬ t' = tbl →
        alookup t' (Delete tbl fid s).1.fldIndexes = alookup t' s.fldIndexes) ∧
      (∀ t', ¬ t' = tbl →
        alookup t' (Delete tbl fid s).1.tagIndexes = alookup t' s.tagIndexes) := by
  rw [Delete, hA]
  rw [wLock, if_pos htbl]
  rcases hR : removeFile tbl fid (emit (.wlock tbl) s) with ⟨s2, res2⟩
  obtain ⟨w1, w2, w3, w4, w5⟩ := removeFile_proj tbl fid (emit (.wlock tbl) s)
  rw [hR] at w1 w2 w3 w4 w5
  dsimp only at w1 w2 w3 w4 w5
  try simp only [hR]
  rcases res2 with _ | e | msg
  · dsimp only
    obtain ⟨Δ, hΔ, e1, e2, e3, e4, eF, eT⟩ := initTblIndexes_effects tbl s2
    rcases hI : initTblIndexes tbl s2 with ⟨s3, res3⟩
    rw [hI] at e1 e2 e3 e4 eF eT
    dsimp only at e1 e2 e3 e4 eF eT
    have hmid : lockFree ([.fsRemove tbl fid] ++ Δ) :=
      lockFree_append (lockFree_cons rfl lockFree_nil) hΔ
    have htr : (wUnlock tbl s3).trace =
        s.trace ++ [.wlock tbl] ++ ([.fsRemove tbl fid] ++ Δ) ++ [.wunlock tbl] := by
      rw [wUnlock, emit_trace, e4, w5]
      simp [emit]
    have hF : ∀ t', ¬ t' = tbl →
        alookup t' (wUnlock tbl s3).fldIndexes = alookup t' s.fldIndexes := by
      intro t' ht'
      rw [wUnlock, emit_fldIndexes, eF t' ht', w4]
      rfl
    have hT : ∀ t', ¬ t' = tbl →
        alookup t' (wUnlock tbl s3).tagIndexes = alookup t' s.tagIndexes := by
      intro t' ht'
      rw [wUnlock, emit_tagIndexes, eT t' ht', w3]
      rfl
    rcases res3 with _ | e | msg <;>
      exact ⟨[.fsRemove tbl fid] ++ Δ, hmid, htr, hF, hT⟩
  · dsimp only
    refine ⟨[.fsRemove tbl fid], lockFree_cons rfl lockFree_nil, ?_, ?_, ?_⟩
    · rw [wUnlock, emit_trace, w5]
      simp [emit]
    · intro t' ht'
      rw [wUnlock, emit_fldIndexes, w4]
      rfl
    · intro t' ht'
      rw [wUnlock, emit_tagIndexes, w3]
      rfl
  · dsimp only
    refine ⟨[.fsRemove tbl fid], lockFree_cons rfl lockFree_nil, ?_, ?_, ?_⟩
    · rw [wUnlock, emit_trace, w5]
      simp [emit]
    · intro t' ht'
      rw [wUnlock, emit_fldIndexes, w4]
      rfl
    · intro t' ht'
      rw [wUnlock, emit_tagIndexes, w3]
      rfl

/-- C9: a mutation on one table leaves every other table's in-memory field
index and tag index untouched: the rebuild replaces only state keyed by the
mutated table.  Stated for every state and every outcome (success, error or
panic) of Create, Update and Delete. -/
theorem C9_other_tables_unchanged (s : DB) (tbl : String) (rec : Rec) (fid : String)
    (t' : String) (hne : ¬ t' = tbl) :
    (alookup t' (Create tbl rec s).1.fldIndexes = alookup t' s.fldIndexes ∧
     alookup t' (Create tbl rec s).1.tagIndexes = alookup t' s.tagIndexes) ∧
    (alookup t' (Update tbl rec fid s).1.fldIndexes = alookup t' s.fldIndexes ∧
     alookup t' (Update tbl rec fid s).1.tagIndexes = alookup t' s.tagIndexes) ∧
    (alookup t' (Delete tbl fid s).1.fldIndexes = alookup t' s.fldIndexes ∧
     alookup t' (Delete tbl fid s).1.tagIndexes = alookup t' s.tagIndexes) := by
  by_cases htbl : tbl ∈ s.rwLocks
  · refine ⟨?_, ?_, ?_⟩
    · obtain ⟨mid, _, _, hF, hT⟩ := Create_effects tbl rec s htbl
      exact ⟨hF t' hne, hT t' hne⟩
    · obtain ⟨mid, _, _, hF, hT⟩ := Update_effects tbl rec fid s htbl
      exact ⟨hF t' hne, hT t' hne⟩
    · rcases hA : goAtoi fid with _ | n
      · have hD : Delete tbl fid s = (s, .err (.atoiErr fid)) := by
          rw [Delete]
          simp [hA]
        rw [hD]
        exact ⟨rfl, rfl⟩
      · obtain ⟨mid, _, _, hF, hT⟩ := Delete_effects tbl fid s htbl n hA
        exact ⟨hF t' hne, hT t' hne⟩
  · have hC : Create tbl rec s = (s, .panicked "nil RWMutex") := by
      simp only [Create, wLock, if_neg htbl]
    have hU : Update tbl rec fid s = (s, .panicked "nil RWMutex") := by
      simp only [Update, wLock, if_neg htbl]
    have hD : (Delete tbl fid s).1 = s := by
      rw [Delete]
      rcases hA : goAtoi fid with _ | n
      · rfl
      · simp only [wLock, if_neg htbl]
    rw [hC, hU, hD]
    exact ⟨⟨rfl, rfl⟩, ⟨rfl, rfl⟩, rfl, rfl⟩

/-- C8: each writer's trace is exactly a write-lock acquisition, a lock-free
middle containing all its file reads/writes and rebuild work, and the final
release — the exclusive lock spans both the file mutation and the full index
rebuild (for Delete, an id that fails validation produces no events at all).
Readers likewise hold the read lock around all their work, which is what
makes a concurrent reader observe either the fully pre-mutation or the fully
post-mutation state of the table, never a mix. -/
theorem C8_lock_spans_mutation_and_rebuild (s : DB) (tbl : String) (rec : Rec)
    (fid fld v : String) (tags : List String) (htbl : tbl ∈ s.rwLocks) :
    (∃ mid, lockFree mid ∧
      (Create tbl rec s).1.trace = s.trace ++ [.wlock tbl] ++ mid ++ [.wunlock tbl]) ∧
    (∃ mid, lockFree mid ∧
      (Update tbl rec fid s).1.trace = s.trace ++ [.wlock tbl] ++ mid ++ [.wunlock tbl]) ∧
    ((goAtoi fid = none ∧ (Delete tbl fid s).1 = s) ∨
     ∃ mid, lockFree mid ∧
      (Delete tbl fid s).1.trace = s.trace ++ [.wlock tbl] ++ mid ++ [.wunlock tbl]) ∧
    (∃ mid, lockFree mid ∧
      (FindAllIds tbl s).1.trace = s.trace ++ [.rlock tbl] ++ mid ++ [.runlock tbl]) ∧
    (∃ mid, lockFree mid ∧
      (FindAllIdsForField tbl fld v s).1.trace =
        s.trace ++ [.rlock tbl] ++ mid ++ [.runlock tbl]) ∧
    (∃ mid, lockFree mid ∧
      (FindAllIdsForTags tbl tags s).1.trace =
        s.trace ++ [.rlock tbl] ++ mid ++ [.runlock tbl]) := by
  refine ⟨?_, ?_, ?_, ?_, ?_, ?_⟩
  · obtain ⟨mid, hmid, htr, _, _⟩ := Create_effects tbl rec s htbl
    exact ⟨mid, hmid, htr⟩
  · obtain ⟨mid, hmid, htr, _, _⟩ := Update_effects tbl rec fid s htbl
    exact ⟨mid, hmid, htr⟩
  · rcases hA : goAtoi fid with _ | n
    · refine Or.inl ⟨rfl, ?_⟩
      rw [Delete]
      simp [hA]
    · obtain ⟨mid, hmid, htr, _, _⟩ := Delete_effects tbl fid s htbl n hA
      exact Or.inr ⟨mid, hmid, htr⟩
  · refine ⟨[.fsList tbl], lockFree_cons rfl lockFree_nil, ?_⟩
    rw [FindAllIds, rLock, if_pos htbl]
    simp [fileIdsInDataDir, rUnlock, emit]
  · rw [FindAllIdsForField, rLock, if_pos htbl]
    rcases hIx : idxLookup (emit (.rlock tbl) s) tbl fld v with _ | ids
    · obtain ⟨Δ, hΔ, heff⟩ := scanFieldLoop_effects tbl fld v
        (dirIds tbl (emit (.rlock tbl) s)) [] []
        (emit (.fsList tbl) (emit (.rlock tbl) s))
      try simp only [hIx]
      refine ⟨.fsList tbl :: Δ, lockFree_cons rfl hΔ, ?_⟩
      rw [scanFallback]
      simp only [fileIdsInDataDir]
      rcases hL : scanFieldLoop tbl fld v (dirIds tbl (emit (.rlock tbl) s)) [] []
          (emit (.fsList tbl) (emit (.rlock tbl) s)) with ⟨s2, res2⟩
      rw [hL] at heff
      dsimp only at heff
      rw [rUnlock, emit_trace]
      rw [show s2 = (s2, res2).1 from rfl, heff]
      simp [emit]
    · try simp only [hIx]
      try dsimp only
      refine ⟨[], lockFree_nil, ?_⟩
      simp [rUnlock, emit]
  · rw [FindAllIdsForTags, rLock, if_pos htbl]
    try dsimp only
    refine ⟨[], lockFree_nil, ?_⟩
    simp [rUnlock, emit]

/-- Witness for C9 at a concrete store: a Create on "posts" leaves the index
bindings of another table name unchanged. -/
theorem C9_witness :
    (¬ "other" = "posts") ∧
    alookup "other" (Create "posts" recAlice dbPosts).1.fldIndexes =
      alookup "other" dbPosts.fldIndexes ∧
    alookup "other" (Create "posts" recAlice dbPosts).1.tagIndexes =
      alookup "other" dbPosts.tagIndexes :=
  ⟨by decide,
   (C9_other_tables_unchanged dbPosts "posts" recAlice "1" "other" (by decide)).1.1,
   (C9_other_tables_unchanged dbPosts "posts" recAlice "1" "other" (by decide)).1.2⟩

/-- Witness for C8 at a concrete store: the Create trace opens with the write
lock, closes with its release, and has a lock-free middle. -/
theorem C8_witness :
    ("posts" ∈ dbPosts.rwLocks) ∧
    ∃ mid, lockFree mid ∧
      (Create "posts" recAlice dbPosts).1.trace =
        dbPosts.trace ++ [.wlock "posts"] ++ mid ++ [.wunlock "posts"] :=
  ⟨by decide,
   (C8_lock_spans_mutation_and_rebuild dbPosts "posts" recAlice "1" "author" "alice" ["go"]
      (by decide)).1⟩

theorem collectInts_ok_mem :
    ∀ {l : List String} {ints : List Int}, collectInts l = .ok ints →
      ∀ f ∈ l, ∃ n, goAtoi f = some n ∧ n ∈ ints := by
  intro l
  induction l with
  | nil => simp
  | cons g rest ih =>
    intro ints h f hf
    rw [collectInts] at h
    rcases hg : goAtoi g with _ | n
    · rw [hg] at h
      simp at h
    · rw [hg] at h
      rcases hr : collectInts rest with ints' | e | m
      · rw [hr] at h
        simp only [RRes.ok.injEq] at h
        subst h
        rcases List.mem_cons.mp hf with rfl | hf
        · exact ⟨n, hg, List.mem_cons.mpr (Or.inl rfl)⟩
        · obtain ⟨m, hm1, hm2⟩ := ih hr f hf
          exact ⟨m, hm1, List.mem_cons.mpr (Or.inr hm2)⟩
      · rw [hr] at h
        simp at h
      · rw [hr] at h
        simp at h

theorem collectInts_err :
    ∀ {l : List String}, (∃ f ∈ l, goAtoi f = none) →
      ∃ f, f ∈ l ∧ goAtoi f = none ∧ collectInts l = .err (.atoiErr f) := by
  intro l
  induction l with
  | nil => simp
  | cons g rest ih =>
    intro h
    rcases hg : goAtoi g with _ | n
    · exact ⟨g, List.mem_cons.mpr (Or.inl rfl), hg, by rw [collectInts, hg]⟩
    · obtain ⟨f, hf, hfn⟩ := h
      rcases List.mem_cons.mp hf with rfl | hf
      · rw [hg] at hfn
        cases hfn
      · obtain ⟨f, hf2, hf3, hf4⟩ := ih ⟨f, hf, hfn⟩
        refine ⟨f, List.mem_cons.mpr (Or.inr hf2), hf3, ?_⟩
        rw [collectInts, hg, hf4]

theorem collectInts_ok_nil {l : List String} (h : collectInts l = .ok []) : l = [] := by
  cases l with
  | nil => rfl
  | cons g rest =>
    rw [collectInts] at h
    rcases hg : goAtoi g with _ | n
    · rw [hg] at h
      simp at h
    · rw [hg] at h
      rcases hr : collectInts rest with ints' | e | m <;> rw [hr] at h <;> simp at h

theorem collectInts_append_single {l : List String} {ints : List Int} {x : String} {k : Int}
    (h : collectInts l = .ok ints) (hx : goAtoi x = some k) :
    collectInts (l ++ [x]) = .ok (ints ++ [k]) := by
  induction l generalizing ints with
  | nil =>
    simp only [collectInts, RRes.ok.injEq] at h
    subst h
    simp [collectInts, hx]
  | cons g rest ih =>
    rw [collectInts] at h
    rcases hg : goAtoi g with _ | n
    · rw [hg] at h
      simp at h
    · rw [hg] at h
      rcases hr : collectInts rest with ints' | e | m
      · rw [hr] at h
        simp only [RRes.ok.injEq] at h
        subst h
        rw [List.cons_append, collectInts, hg, ih hr]
        rfl
      · rw [hr] at h
        simp at h
      · rw [hr] at h
        simp at h

theorem foldl_max_le (xs : List Int) :
    ∀ (a : Int), a ≤ xs.foldl max a ∧ ∀ n ∈ xs, n ≤ xs.foldl max a := by
  induction xs with
  | nil =>
    intro a
    exact ⟨le_refl a, by simp⟩
  | cons b xs ih =>
    intro a
    constructor
    · exact le_trans (le_max_left a b) (ih (max a b)).1
    · intro n hn
      rcases List.mem_cons.mp hn with rfl | hn
      · exact le_trans (le_max_right a n) (ih (max a n)).1
      · exact (ih (max a b)).2 n hn

theorem le_maxOf {l : List Int} {n : Int} (h : n ∈ l) : n ≤ maxOf l := by
  cases l with
  | nil => simp at h
  | cons x xs =>
    rcases List.mem_cons.mp h with rfl | h
    · exact (foldl_max_le xs n).1
    · exact (foldl_max_le xs x).2 n h

theorem maxOf_concat (l : List Int) (x : Int) (h : ¬ l = []) :
    maxOf (l ++ [x]) = max (maxOf l) x := by
  cases l with
  | nil => exact absurd rfl h
  | cons b xs =>
    rw [List.cons_append]
    show (xs ++ [x]).foldl max b = max (xs.foldl max b) x
    rw [List.foldl_append]
    rfl

theorem Create_ok_inversion {tbl : String} {rec : Rec} {s s' : DB} {fid : String}
    (h : Create tbl rec s = (s', .ok fid)) :
    tbl ∈ s.rwLocks ∧
    ∃ ints files,
      collectInts (dirIds tbl s) = .ok ints ∧
      fid = (if ints = [] then "1" else intToStr (maxOf ints + 1)) ∧
      alookup tbl s.fsys = some files ∧
      s'.fsys = aset tbl (aset fid (.json rec) files) s.fsys := by
  by_cases htbl : tbl ∈ s.rwLocks
  · rw [Create, wLock, if_pos htbl] at h
    simp only [nextAvailableFileId, fileIdsInDataDir, dirIds_emit] at h
    rcases hci : collectInts (dirIds tbl s) with ints | e | m
    · simp only [hci] at h
      simp only [writeFile, emit_fsys] at h
      rcases hfs : alookup tbl s.fsys with _ | files
      · simp only [hfs] at h
        simp at h
      · simp only [hfs] at h
        rcases hI : initTblIndexes tbl
            ({ emit (.fsWrite tbl (if ints = [] then "1" else intToStr (maxOf ints + 1)))
                 (emit (.fsList tbl) (emit (.wlock tbl) s)) with
               fsys := aset tbl
                 (aset (if ints = [] then "1" else intToStr (maxOf ints + 1))
                   (.json rec) files) s.fsys }) with ⟨s3, res3⟩
        obtain ⟨Δ, hΔ, e1, e2, e3, e4, eF, eT⟩ := initTblIndexes_effects tbl
            ({ emit (.fsWrite tbl (if ints = [] then "1" else intToStr (maxOf ints + 1)))
                 (emit (.fsList tbl) (emit (.wlock tbl) s)) with
               fsys := aset tbl
                 (aset (if ints = [] then "1" else intToStr (maxOf ints + 1))
                   (.json rec) files) s.fsys })
        rw [hI] at e3
        dsimp only at e3
        simp only [hI] at h
        rcases res3 with _ | e | m
        · dsimp only at h
          rw [Prod.mk.injEq] at h
          obtain ⟨hs', hfid⟩ := h
          rw [RRes.ok.injEq] at hfid
          subst hfid
          refine ⟨htbl, ints, files, rfl, rfl, rfl, ?_⟩
          rw [← hs', wUnlock, emit_fsys, e3]
        · dsimp only at h
          rw [Prod.mk.injEq] at h
          simp at h
        · dsimp only at h
          rw [Prod.mk.injEq] at h
          simp at h
    · simp only [hci] at h
      try dsimp only at h
      rw [Prod.mk.injEq] at h
      simp at h
    · simp only [hci] at h
      try dsimp only at h
      rw [Prod.mk.injEq] at h
      simp at h
  · rw [Create, wLock, if_neg htbl] at h
    rw [Prod.mk.injEq] at h
    simp at h

/-- C4: id allocation (nextAvailableFileId, used by Create) returns the
decimal string of max(parsed existing ids) + 1, or "1" when the table has no
records; it fails with the first Atoi decode error when some existing file
stem does not parse as an integer; and two consecutive successful Creates
with nothing in between return ids N and N+1. -/
theorem C4_id_allocation (s s1 s2 : DB) (tbl : String)
    (rec1 rec2 : Rec) (ints : List Int) (n1 n2 : String) :
    (collectInts (dirIds tbl s) = .ok ints →
      (nextAvailableFileId tbl s).2 =
        .ok (if ints = [] then "1" else intToStr (maxOf ints + 1))) ∧
    ((∃ f ∈ dirIds tbl s, goAtoi f = none) →
      ∃ f, f ∈ dirIds tbl s ∧ goAtoi f = none ∧
        (nextAvailableFileId tbl s).2 = .err (.atoiErr f)) ∧
    (Create tbl rec1 s = (s1, .ok n1) → Create tbl rec2 s1 = (s2, .ok n2) →
      ∃ k : Int, goAtoi n1 = some k ∧ n1 = intToStr k ∧ n2 = intToStr (k + 1)) := by
  refine ⟨?_, ?_, ?_⟩
  · intro hci
    rw [nextAvailableFileId]
    have : (fileIdsInDataDir tbl s).2 = dirIds tbl s := rfl
    rw [this, hci]
  · intro hex
    obtain ⟨f, hf, hfn, hcoll⟩ := collectInts_err hex
    refine ⟨f, hf, hfn, ?_⟩
    rw [nextAvailableFileId]
    have : (fileIdsInDataDir tbl s).2 = dirIds tbl s := rfl
    rw [this, hcoll]
  · intro h1 h2
    obtain ⟨htbl, ints1, files, hci, hn1, hfs, hs1fsys⟩ := Create_ok_inversion h1
    obtain ⟨htbl2, ints2, files2, hci2, hn2, hfs2, hs2fsys⟩ := Create_ok_inversion h2
    have htf : tblFiles tbl s = files := by
      rw [tblFiles, hfs]
      rfl
    have hdir : dirIds tbl s = files.map Prod.fst := by
      rw [dirIds, htf]
    refine ⟨if ints1 = [] then (1 : Int) else maxOf ints1 + 1, ?_, ?_, ?_⟩
    · by_cases hni : ints1 = []
      · rw [hn1, if_pos hni, if_pos hni]
        decide
      · rw [hn1, if_neg hni, if_neg hni]
        exact goAtoi_intToStr _
    · by_cases hni : ints1 = []
      · rw [hn1, if_pos hni, if_pos hni]
        decide
      · rw [hn1, if_neg hni, if_neg hni]
    · -- the second allocation sees the old listing plus the new file
      have hfresh : ¬ n1 ∈ files.map Prod.fst := by
        intro hmem
        have hmem' : n1 ∈ dirIds tbl s := by
          rw [hdir]
          exact hmem
        obtain ⟨m, hm1, hm2⟩ := collectInts_ok_mem hci n1 hmem'
        by_cases hni : ints1 = []
        · rw [hni] at hm2
          simp at hm2
        · rw [hn1, if_neg hni, goAtoi_intToStr] at hm1
          rw [Option.some.injEq] at hm1
          have := le_maxOf hm2
          omega
      have htf1 : tblFiles tbl s1 = aset n1 (.json rec1) files := by
        rw [tblFiles, hs1fsys, alookup_aset_self]
        rfl
      have hdir1 : dirIds tbl s1 = dirIds tbl s ++ [n1] := by
        rw [dirIds, htf1, map_fst_aset_fresh _ hfresh, hdir]
      have hk : goAtoi n1 = some (if ints1 = [] then (1 : Int) else maxOf ints1 + 1) := by
        by_cases hni : ints1 = []
        · rw [hn1, if_pos hni, if_pos hni]
          decide
        · rw [hn1, if_neg hni, if_neg hni]
          exact goAtoi_intToStr _
      have hci1 : collectInts (dirIds tbl s1) =
          .ok (ints1 ++ [if ints1 = [] then (1 : Int) else maxOf ints1 + 1]) := by
        rw [hdir1]
        exact collectInts_append_single hci hk
      have hints2 : ints2 = ints1 ++ [if ints1 = [] then (1 : Int) else maxOf ints1 + 1] := by
        rw [hci1] at hci2
        rw [RRes.ok.injEq] at hci2
        exact hci2.symm
      have hne2 : ¬ ints2 = [] := by
        rw [hints2]
        simp
      rw [hn2, if_neg hne2, hints2]
      by_cases hni : ints1 = []
      · subst hni
        rw [if_pos rfl]
        rfl
      · rw [if_neg hni, maxOf_concat _ _ hni]
        have hmax : max (maxOf ints1) (maxOf ints1 + 1) = maxOf ints1 + 1 :=
          max_eq_right (by omega)
        rw [hmax]

/-- Witness for C4 at a concrete store: the listing parses to [1, 2], the
next id is "3", and two consecutive Creates return "3" then "4". -/
theorem C4_witness :
    collectInts (dirIds "posts" dbPosts) = .ok [1, 2] ∧
    (nextAvailableFileId "posts" dbPosts).2 = .ok (intToStr (maxOf [1, 2] + 1)) ∧
    ∃ k : Int, goAtoi "3" = some k ∧ "3" = intToStr k ∧ "4" = intToStr (k + 1) := by
  refine ⟨by decide, ?_, ?_⟩
  · have h := (C4_id_allocation dbPosts dbPosts dbPosts "posts" recAlice recBob
      [1, 2] "3" "4").1 (by decide)
    simpa using h
  · exact (C4_id_allocation dbPosts (Create "posts" recAlice dbPosts).1
      ((Create "posts" recBob (Create "posts" recAlice dbPosts).1).1) "posts"
      recAlice recBob [1, 2] "3" "4").2.2 (by decide) (by decide)

/-! ### Counting lemmas for the tag query -/

theorem bumpIds_count (fids : List String) :
    ∀ (m : List (String × Nat)) (x : String), fids.Nodup →
      (alookup x (bumpIds fids m)).getD 0 =
        (alookup x m).getD 0 + (if x ∈ fids then 1 else 0) := by
  induction fids with
  | nil =>
    intro m x _
    simp [bumpIds]
  | cons f rest ih =>
    intro m x hnd
    rw [List.nodup_cons] at hnd
    rw [bumpIds]
    rw [ih _ x hnd.2]
    by_cases hx : x = f
    · subst hx
      have hxr : ¬ x ∈ rest := hnd.1
      rcases hm : alookup x m with _ | n
      · simp [hm, alookup_aset_self, hxr]
      · simp [hm, alookup_aset_self, hxr]
    · have hlook : ∀ (v : Nat) (mm : List (String × Nat)),
          alookup x (aset f v mm) = alookup x mm := fun v mm => alookup_aset_ne v mm hx
      rcases hm : alookup f m with _ | n
      · dsimp only
        rw [hlook]
        simp [List.mem_cons, hx]
      · dsimp only
        rw [hlook]
        simp [List.mem_cons, hx]

theorem aset_keys_nodup {α : Type} {m : List (String × α)} {k : String} (v : α)
    (h : (m.map Prod.fst).Nodup) : ((aset k v m).map Prod.fst).Nodup := by
  by_cases hk : k ∈ m.map Prod.fst
  · rw [map_fst_aset_mem v hk]
    exact h
  · rw [map_fst_aset_fresh v hk]
    rw [List.nodup_append]
    exact ⟨h, List.nodup_singleton k, by simpa using hk⟩

theorem bumpIds_keys_nodup (fids : List String) :
    ∀ {m : List (String × Nat)}, (m.map Prod.fst).Nodup →
      ((bumpIds fids m).map Prod.fst).Nodup := by
  induction fids with
  | nil =>
    intro m h
    exact h
  | cons f rest ih =>
    intro m h
    rw [bumpIds]
    rcases hm : alookup f m with _ | n
    · exact ih (aset_keys_nodup 1 h)
    · exact ih (aset_keys_nodup (n + 1) h)

theorem tallyTags_count (ti : TagIdx) (hti : ∀ p ∈ ti, p.2.Nodup) :
    ∀ (ts : List String) (m : List (String × Nat)) (x : String),
      (alookup x (tallyTags ti ts m)).getD 0 =
        (alookup x m).getD 0 +
          (ts.filter (fun t => decide (x ∈ bucketOf ti t))).length := by
  intro ts
  induction ts with
  | nil =>
    intro m x
    simp [tallyTags]
  | cons t rest ih =>
    intro m x
    rw [tallyTags, List.filter_cons]
    rcases hb : alookup t ti with _ | fids
    · have hnb : ¬ x ∈ bucketOf ti t := by
        simp [bucketOf, hb]
      rw [ih]
      simp [hnb]
    · have hbt : bucketOf ti t = fids := by
        simp [bucketOf, hb]
      rw [ih, bumpIds_count fids m x (hti _ (alookup_mem hb))]
      by_cases hx : x ∈ fids
      · have : x ∈ bucketOf ti t := hbt ▸ hx
        simp [hx, this]
        omega
      · have : ¬ x ∈ bucketOf ti t := hbt ▸ hx
        simp [hx, this]

theorem tallyTags_keys_nodup (ti : TagIdx) :
    ∀ (ts : List String) {m : List (String × Nat)}, (m.map Prod.fst).Nodup →
      ((tallyTags ti ts m).map Prod.fst).Nodup := by
  intro ts
  induction ts with
  | nil =>
    intro m h
    exact h
  | cons t rest ih =>
    intro m h
    rw [tallyTags]
    rcases hb : alookup t ti with _ | fids
    · exact ih h
    · exact ih (bumpIds_keys_nodup fids h)

theorem mem_filter_map_fst {m : List (String × Nat)} (P : String × Nat → Bool) (x : String)
    (hnd : (m.map Prod.fst).Nodup) :
    x ∈ (m.filter P).map Prod.fst ↔ ∃ n, alookup x m = some n ∧ P (x, n) = true := by
  induction m with
  | nil => simp
  | cons p rest ih =>
    rw [List.map_cons, List.nodup_cons] at hnd
    rw [List.filter_cons]
    by_cases hx : x = p.1
    · have hlook : alookup x (p :: rest) = some p.2 := by
        rw [alookup_cons, if_pos hx]
      have hpair : (x, p.2) = p := by
        rcases p with ⟨p1, p2⟩
        simp only [Prod.mk.injEq]
        exact ⟨hx, trivial⟩
      by_cases hP : P p
      · rw [if_pos hP]
        simp only [List.map_cons, List.mem_cons]
        constructor
        · intro _
          refine ⟨p.2, hlook, ?_⟩
          rw [hpair]
          exact hP
        · intro _
          exact Or.inl hx
      · rw [if_neg (by simpa using hP)]
        constructor
        · intro h
          obtain ⟨q, hq, hq2⟩ := List.mem_map.mp h
          have hxr : x ∈ rest.map Prod.fst :=
            List.mem_map.mpr ⟨q, List.mem_of_mem_filter hq, hq2⟩
          rw [hx] at hxr
          exact absurd hxr hnd.1
        · rintro ⟨n, hn, hPn⟩
          rw [hlook, Option.some.injEq] at hn
          subst hn
          rw [hpair] at hPn
          exact absurd hPn (by simpa using hP)
    · have hlook : alookup x (p :: rest) = alookup x rest := by
        rw [alookup_cons, if_neg hx]
      rw [hlook]
      by_cases hP : P p
      · rw [if_pos hP, List.map_cons, List.mem_cons]
        rw [ih hnd.2]
        constructor
        · rintro (h | h)
          · exact absurd h hx
          · exact h
        · exact fun h => Or.inr h
      · rw [if_neg (by simpa using hP)]
        exact ih hnd.2

theorem filter_length_eq_iff {α : Type} (p : α → Bool) (l : List α) :
    (l.filter p).length = l.length ↔ ∀ a ∈ l, p a = true := by
  induction l with
  | nil => simp
  | cons a rest ih =>
    rw [List.filter_cons]
    by_cases hp : p a
    · rw [if_pos hp]
      simp only [List.length_cons, Nat.add_right_cancel_iff, ih]
      constructor
      · intro h b hb
        rcases List.mem_cons.mp hb with rfl | hb
        · exact hp
        · exact h b hb
      · intro h b hb
        exact h b (List.mem_cons.mpr (Or.inr hb))
    · rw [if_neg (by simpa using hp)]
      constructor
      · intro h
        have hle := List.length_filter_le p rest
        rw [List.length_cons] at h
        omega
      · intro h
        exact absurd (h a (List.mem_cons.mpr (Or.inl rfl))) (by simpa using hp)

theorem chain_tags_own :
    ∀ (sub : List (String × FileData)) (acc : Rec),
      (∀ p ∈ sub, (ownTags p.2).isSome) →
      (∀ x r, (x, r) ∈ chain sub acc →
        ∃ ts, alookup "tags" r = some (.arr ts) ∧
          ∃ d, (x, d) ∈ sub ∧ ownTags d = some ts) ∧
      (∀ x d, (x, d) ∈ sub → ∀ ts, ownTags d = some ts →
        ∃ r, (x, r) ∈ chain sub acc ∧ alookup "tags" r = some (.arr ts)) := by
  intro sub
  induction sub with
  | nil =>
    intro acc _
    constructor
    · intro x r h
      simp [chain] at h
    · intro x d h
      simp at h
  | cons q rest ih =>
    intro acc hown
    rcases q with ⟨fid, d⟩
    have hd := hown ⟨fid, d⟩ (List.mem_cons.mpr (Or.inl rfl))
    rcases d with r0 | _
    · rcases hts0 : alookup "tags" r0 with _ | tv
      · rw [ownTags, hts0] at hd
        simp at hd
      · rcases tv with u | ts0 | _
        · rw [ownTags, hts0] at hd
          simp at hd
        · have hmerged : alookup "tags" (r0 ++ acc) = some (.arr ts0) :=
            alookup_append_left hts0 acc
          obtain ⟨ihA, ihB⟩ := ih (r0 ++ acc)
            (fun p hp => hown p (List.mem_cons.mpr (Or.inr hp)))
          constructor
          · intro x r h
            rw [chain] at h
            rcases List.mem_cons.mp h with he | h
            · injection he with he1 he2
              subst he1
              subst he2
              exact ⟨ts0, hmerged, .json r0, List.mem_cons.mpr (Or.inl rfl),
                by rw [ownTags, hts0]⟩
            · obtain ⟨ts, h1, d2, h2, h3⟩ := ihA x r h
              exact ⟨ts, h1, d2, List.mem_cons.mpr (Or.inr h2), h3⟩
          · intro x d hmem ts hts
            rcases List.mem_cons.mp hmem with he | hmem
            · injection he with he1 he2
              subst he1
              subst he2
              rw [ownTags, hts0] at hts
              dsimp only at hts
              rw [Option.some.injEq] at hts
              refine ⟨r0 ++ acc, ?_, ?_⟩
              · rw [chain]
                exact List.mem_cons.mpr (Or.inl rfl)
              · rw [← hts]
                exact hmerged
            · obtain ⟨r, h1, h2⟩ := ihB x d hmem ts hts
              refine ⟨r, ?_, h2⟩
              rw [chain]
              exact List.mem_cons.mpr (Or.inr h1)
        · rw [ownTags, hts0] at hd
          simp at hd
    · rw [ownTags] at hd
      simp at hd

theorem ownTags_some {d : FileData} {ts : List JElem} (h : ownTags d = some ts) :
    ∃ rd, d = .json rd ∧ alookup "tags" rd = some (.arr ts) := by
  rcases d with rd | _
  · rcases ht : alookup "tags" rd with _ | tv
    · rw [ownTags, ht] at h
      simp at h
    · rcases tv with u | ts0 | _
      · rw [ownTags, ht] at h
        simp at h
      · rw [ownTags, ht] at h
        dsimp only at h
        rw [Option.some.injEq] at h
        subst h
        exact ⟨rd, rfl, ht⟩
      · rw [ownTags, ht] at h
        simp at h
  · rw [ownTags] at h
    simp at h

theorem getD_eq_some {o : Option Nat} {k : Nat} (h : o.getD 0 = k) (hk : ¬ k = 0) :
    o = some k := by
  rcases o with _ | n
  · simp at h
    exact absurd h.symm hk
  · simp at h
    rw [h]

/-- C3: FindAllIdsForTags returns exactly the ids whose tag set is a superset
of the requested tags.  It counts, for each requested tag present in the tag
index, every id in that tag's bucket, and keeps an id exactly when its count
equals the number of search tags, which (counting once per occurrence of a
requested tag) holds exactly when the id lies in every requested tag's
bucket; the empty tag list returns the empty set, not all records.  Under a
tag index that a rebuild of the current files reproduces, and records whose
own "tags" attribute is an array of strings, membership is exactly the
superset condition on the record's own tags. -/
theorem C3_findAllIdsForTags_superset (s : DB) (tbl : String) (searchTags : List String)
    (htbl : tbl ∈ s.rwLocks) :
    ∃ s1 L, FindAllIdsForTags tbl searchTags s = (s1, .ok L) ∧
      (searchTags = [] → L = []) ∧
      ((∀ p ∈ tblTagIdx tbl s, p.2.Nodup) →
        ∀ x, x ∈ L ↔ (¬ searchTags = [] ∧
          ∀ t ∈ searchTags, x ∈ bucketOf (tblTagIdx tbl s) t)) ∧
      ((dirIds tbl s).Nodup →
        (∀ p ∈ tblFiles tbl s, (ownTags p.2).isSome) →
        (initTagsIndex tbl s).2 = .ok () →
        alookup tbl (initTagsIndex tbl s).1.tagIndexes = alookup tbl s.tagIndexes →
        ∀ x, x ∈ L ↔ (¬ searchTags = [] ∧ ∃ r ts,
          alookup x (tblFiles tbl s) = some (.json r) ∧
          alookup "tags" r = some (.arr ts) ∧
          ∀ t ∈ searchTags, JElem.str t ∈ ts)) := by
  have hL : FindAllIdsForTags tbl searchTags s =
      (rUnlock tbl (emit (.rlock tbl) s), .ok
        (if searchTags = [] then []
         else ((tallyTags (tblTagIdx tbl s) searchTags []).filter
           (fun p => p.2 = searchTags.length)).map Prod.fst)) := by
    rw [FindAllIdsForTags, rLock, if_pos htbl]
    rfl
  have hchar : ∀ (hwf : ∀ p ∈ tblTagIdx tbl s, p.2.Nodup) (x : String),
      (x ∈ (if searchTags = [] then ([] : List String)
        else ((tallyTags (tblTagIdx tbl s) searchTags []).filter
          (fun p => p.2 = searchTags.length)).map Prod.fst)) ↔
      (¬ searchTags = [] ∧ ∀ t ∈ searchTags, x ∈ bucketOf (tblTagIdx tbl s) t) := by
    intro hwf x
    by_cases hempty : searchTags = []
    · rw [if_pos hempty]
      simp [hempty]
    · rw [if_neg hempty]
      rw [mem_filter_map_fst _ x (tallyTags_keys_nodup _ _ (by simp))]
      have hcount := tallyTags_count (tblTagIdx tbl s) hwf searchTags [] x
      rw [show (alookup x ([] : List (String × Nat))).getD 0 = 0 from rfl] at hcount
      rw [Nat.zero_add] at hcount
      constructor
      · rintro ⟨n, hn, hPn⟩
        rw [decide_eq_true_eq] at hPn
        subst hPn
        rw [hn] at hcount
        refine ⟨hempty, ?_⟩
        intro t ht
        have hallb := (filter_length_eq_iff
          (fun t => decide (x ∈ bucketOf (tblTagIdx tbl s) t)) searchTags).mp
          (by rw [← hcount]; rfl) t ht
        rw [decide_eq_true_eq] at hallb
        exact hallb
      · rintro ⟨-, hall⟩
        have hlen : (searchTags.filter
            (fun t => decide (x ∈ bucketOf (tblTagIdx tbl s) t))).length =
            searchTags.length := by
          rw [filter_length_eq_iff]
          intro t ht
          rw [decide_eq_true_eq]
          exact hall t ht
        rw [hlen] at hcount
        have hne0 : ¬ searchTags.length = 0 := by
          intro h0
          exact hempty (List.length_eq_zero.mp h0)
        refine ⟨searchTags.length, getD_eq_some hcount hne0, ?_⟩
        simp
  refine ⟨_, _, hL, ?_, hchar, ?_⟩
  · intro he
    rw [if_pos he]
  · intro hnd hown hok hfix x
    obtain ⟨Δ, hΔ, heq⟩ := initTagsIndex_spec tbl s hnd
    rw [heq] at hok hfix
    dsimp only at hok hfix
    rcases hB : tagRebuild tbl s with ⟨B, res⟩
    rw [hB] at hok hfix
    dsimp only at hok hfix
    rcases res with _ | e | msg
    · rw [alookup_aset_self] at hfix
      have hbt : tblTagIdx tbl s = B := by
        rw [tblTagIdx, ← hfix]
        rfl
      have hBeq : buildTags (tblFiles tbl s) [] [] = (B, .ok ()) := by
        rw [← tagRebuild, hB]
      have hwf : ∀ p ∈ tblTagIdx tbl s, p.2.Nodup := by
        rw [hbt]
        exact buildTags_nodup hBeq (by simp)
      have hbucket : ∀ t x2, x2 ∈ bucketOf (tblTagIdx tbl s) t ↔ ∃ r ts,
          (x2, r) ∈ chain (tblFiles tbl s) [] ∧
          alookup "tags" r = some (.arr ts) ∧ JElem.str t ∈ ts := by
        intro t x2
        rw [hbt, buildTags_ok_mem hBeq t x2]
        constructor
        · rintro (hfalse | ⟨r, ts, h1, h2, h3⟩)
          · simp [bucketOf] at hfalse
          · exact ⟨r, ts, h1, h2, h3⟩
        · rintro ⟨r, ts, h1, h2, h3⟩
          exact Or.inr ⟨r, ts, h1, h2, h3⟩
      obtain ⟨chA, chB⟩ := chain_tags_own (tblFiles tbl s) [] hown
      rw [hchar hwf x]
      by_cases hempty : searchTags = []
      · simp [hempty]
      · constructor
        · rintro ⟨-, hall⟩
          refine ⟨hempty, ?_⟩
          obtain ⟨t0, ht0⟩ := List.exists_mem_of_ne_nil searchTags hempty
          obtain ⟨r0, ts0x, hch0, htag0, -⟩ := (hbucket t0 x).mp (hall t0 ht0)
          obtain ⟨ts0, htag0b, d0, hd0, hown0⟩ := chA x r0 hch0
          obtain ⟨rd, rfl, hrd⟩ := ownTags_some hown0
          have hfile : alookup x (tblFiles tbl s) = some (.json rd) :=
            alookup_of_nodup_mem hnd hd0
          refine ⟨rd, ts0, hfile, hrd, ?_⟩
          intro t ht
          obtain ⟨r2, ts2, hch2, htag2, hmem2⟩ := (hbucket t x).mp (hall t ht)
          obtain ⟨ts2b, htag2b, d2, hd2, hown2⟩ := chA x r2 hch2
          have hts2 : ts2b = ts2 := by
            rw [htag2] at htag2b
            rw [Option.some.injEq] at htag2b
            injection htag2b with h
            exact h.symm
          have hd2file : alookup x (tblFiles tbl s) = some d2 :=
            alookup_of_nodup_mem hnd hd2
          rw [hfile] at hd2file
          rw [Option.some.injEq] at hd2file
          have hown2b : ownTags (FileData.json rd) = some ts2b := by
            rw [hd2file]
            exact hown2
          rw [ownTags, hrd] at hown2b
          dsimp only at hown2b
          rw [Option.some.injEq] at hown2b
          rw [hown2b, hts2]
          exact hmem2
        · rintro ⟨-, rd, ts, hfile, hrd, hall⟩
          refine ⟨hempty, ?_⟩
          intro t ht
          rw [hbucket t x]
          have hmemfile : (x, FileData.json rd) ∈ tblFiles tbl s := alookup_mem hfile
          have hownrd : ownTags (FileData.json rd) = some ts := by
            rw [ownTags, hrd]
          obtain ⟨r, hch, htag⟩ := chB x (FileData.json rd) hmemfile ts hownrd
          exact ⟨r, ts, hch, htag, hall t ht⟩
    · simp at hok
    · simp at hok

theorem buildFlds_ok_json {flds : List String} :
    ∀ {sub : List (String × FileData)} {acc : Rec} {fi B : FldIdx},
      buildFlds sub acc flds fi = (B, .ok ()) →
      ∀ p ∈ sub, ∃ r, p.2 = FileData.json r := by
  intro sub
  induction sub with
  | nil => simp
  | cons q rest ih =>
    intro acc fi B h p hp
    rcases q with ⟨fid, d⟩
    rcases d with r | _
    · rw [buildFlds] at h
      rcases hi : idxRecFields fid (r ++ acc) flds fi with ⟨fi1, res1⟩
      rw [hi] at h
      rcases res1 with _ | e | msg
      · rcases List.mem_cons.mp hp with rfl | hp
        · exact ⟨r, rfl⟩
        · exact ih h p hp
      · simp at h
      · simp at h
    · rw [buildFlds] at h
      simp at h

theorem skeletonFldIdx_bucket (flds : List String) (f v : String) :
    fBucket (skeletonFldIdx flds) f v = [] := by
  have hgen : ∀ (l : List String) (acc : FldIdx),
      (∀ g, alookup g acc = none ∨ alookup g acc = some []) →
      ∀ g, alookup g (l.foldl (fun fi f => if f = "tags" then fi else aset f [] fi) acc) = none ∨
        alookup g (l.foldl (fun fi f => if f = "tags" then fi else aset f [] fi) acc) = some [] := by
    intro l
    induction l with
    | nil =>
      intro acc h g
      exact h g
    | cons a rest ih =>
      intro acc h g
      rw [List.foldl_cons]
      by_cases ha : a = "tags"
      · rw [if_pos ha]
        exact ih acc h g
      · rw [if_neg ha]
        refine ih _ ?_ g
        intro g2
        by_cases hg2 : g2 = a
        · subst hg2
          exact Or.inr (alookup_aset_self g2 [] acc)
        · rw [alookup_aset_ne _ _ hg2]
          exact h g2
  rcases hgen flds [] (fun g => Or.inl rfl) f with h | h <;>
    simp [skeletonFldIdx, fBucket, bucketOf, h]

/-- C2: for a table with an index configuration whose field index is exactly
what a rebuild of the current files produces, FindAllIdsForField's indexed
fast path and its scanning fallback agree: the fallback succeeds and returns
a list with the same members as the index bucket for (field, value) — the
empty set when the (table, field, value) chain is absent — and the function
itself returns that same set whichever path it takes.  Both paths decode
through the same shared-map scan, so they also agree on records whose
configured field leaked from an earlier file. -/
theorem C2_index_scan_equivalence (s : DB) (tbl fld v : String) (flds : List String)
    (htbl : tbl ∈ s.rwLocks)
    (hnd : (dirIds tbl s).Nodup)
    (hcfg : alookup tbl s.fieldsToIndex = some flds)
    (hfld : fld ∈ flds) (hnt : ¬ fld = "tags")
    (hok : (initNonTagsIndexes tbl s).2 = .ok ())
    (hfix : alookup tbl (initNonTagsIndexes tbl s).1.fldIndexes = alookup tbl s.fldIndexes) :
    ∃ s2 L, scanFallback tbl fld v s = (s2, .ok L) ∧
      (∀ x, x ∈ L ↔ x ∈ (idxLookup s tbl fld v).getD []) ∧
      ∃ s3, FindAllIdsForField tbl fld v s = (s3, .ok ((idxLookup s tbl fld v).getD [])) := by
  obtain ⟨Δ, hΔ, heq⟩ := initNonTagsIndexes_spec tbl s hnd
  rw [heq] at hok hfix
  dsimp only at hok hfix
  rw [alookup_aset_self] at hfix
  rcases hB : fldRebuild tbl s with ⟨B, res⟩
  rw [hB] at hok hfix
  dsimp only at hok hfix
  rcases res with _ | e | msg
  · have hBeq : buildFlds (tblFiles tbl s) [] flds (skeletonFldIdx flds) = (B, .ok ()) := by
      have : fldRebuild tbl s =
          buildFlds (tblFiles tbl s) [] flds (skeletonFldIdx flds) := by
        rw [fldRebuild, hcfg]
        rfl
      rw [← this, hB]
    have hsB : alookup tbl s.fldIndexes = some B := hfix.symm
    have hstr : ∀ p ∈ chain (tblFiles tbl s) [], ∃ u, alookup fld p.2 = some (.str u) :=
      buildFlds_ok_str hBeq fld hfld hnt
    have hjson : ∀ p ∈ tblFiles tbl s, ∃ r, p.2 = FileData.json r :=
      buildFlds_ok_json hBeq
    obtain ⟨L, hsp, hmem⟩ := scanPure_ok (v := v) hstr hjson
    have hbucket : ∀ x, x ∈ L ↔ x ∈ fBucket B fld v := by
      intro x
      rw [hmem x, buildFlds_ok_mem hBeq fld v x hfld hnt, skeletonFldIdx_bucket]
      simp
    have hgetD : (idxLookup s tbl fld v).getD [] = fBucket B fld v := by
      rw [idxLookup, hsB]
      rcases hf : alookup fld B with _ | b
      · simp [fBucket, bucketOf, hf]
      · rcases hv : alookup v b with _ | ids
        · simp [fBucket, bucketOf, hf, hv]
        · simp [fBucket, bucketOf, hf, hv]
    have hlk : ∀ p ∈ tblFiles tbl s, alookup p.1 (tblFiles tbl s) = some p.2 :=
      fun p hp => alookup_of_nodup_mem hnd hp
    -- the scanning fallback from s
    obtain ⟨Δ2, hΔ2, heq2⟩ := scanFieldLoop_spec tbl fld v (tblFiles tbl s) [] []
      (emit (.fsList tbl) s) (by intro p hp; simpa using hlk p hp)
    have hsfb : scanFallback tbl fld v s =
        ({ emit (.fsList tbl) s with trace := (emit (.fsList tbl) s).trace ++ Δ2 }, .ok L) := by
      rw [scanFallback]
      simp only [fileIdsInDataDir]
      have hdir : dirIds tbl s = (tblFiles tbl s).map Prod.fst := rfl
      rw [hdir, heq2, hsp]
      rfl
    refine ⟨_, L, hsfb, ?_, ?_⟩
    · intro x
      rw [hbucket x, hgetD]
    · -- the public function returns the same set on either path
      rw [FindAllIdsForField, rLock, if_pos htbl]
      try dsimp only
      have hIxE : idxLookup (emit (.rlock tbl) s) tbl fld v = idxLookup s tbl fld v := rfl
      rcases hIx : idxLookup s tbl fld v with _ | ids
      · -- fallback path: the bucket chain is absent, the scan returns []
        obtain ⟨Δ3, hΔ3, heq3⟩ := scanFieldLoop_spec tbl fld v (tblFiles tbl s) [] []
          (emit (.fsList tbl) (emit (.rlock tbl) s))
          (by intro p hp; simpa using hlk p hp)
        have hLnil : L = [] := by
          have hB0 : fBucket B fld v = [] := by
            rw [← hgetD, hIx]
            rfl
          rcases L with _ | ⟨x, L⟩
          · rfl
          · have hx : x ∈ fBucket B fld v := (hbucket x).mp (List.mem_cons.mpr (Or.inl rfl))
            rw [hB0] at hx
            simp at hx
        have hsfb2 : scanFallback tbl fld v (emit (.rlock tbl) s) =
            ({ emit (.fsList tbl) (emit (.rlock tbl) s) with
                trace := (emit (.fsList tbl) (emit (.rlock tbl) s)).trace ++ Δ3 }, .ok L) := by
          rw [scanFallback]
          simp only [fileIdsInDataDir]
          have hdir3 : dirIds tbl (emit (.rlock tbl) s) = (tblFiles tbl s).map Prod.fst := rfl
          rw [hdir3, heq3, hsp]
          rfl
        rw [hIxE, hIx]
        try dsimp only
        rw [hsfb2]
        try dsimp only
        rw [hLnil]
        exact ⟨_, rfl⟩
      · rw [hIxE, hIx]
        try dsimp only
        exact ⟨_, rfl⟩
  · simp at hok
  · simp at hok

theorem C2_witness :
    ("posts" ∈ dbPosts.rwLocks) ∧ (dirIds "posts" dbPosts).Nodup ∧
    alookup "posts" dbPosts.fieldsToIndex = some ["author", "tags"] ∧
    "author" ∈ ["author", "tags"] ∧ ¬ "author" = "tags" ∧
    (initNonTagsIndexes "posts" dbPosts).2 = .ok () ∧
    alookup "posts" (initNonTagsIndexes "posts" dbPosts).1.fldIndexes =
      alookup "posts" dbPosts.fldIndexes ∧
    ∃ s2 L, scanFallback "posts" "author" "alice" dbPosts = (s2, .ok L) ∧
      (∀ x, x ∈ L ↔ x ∈ (idxLookup dbPosts "posts" "author" "alice").getD []) ∧
      ∃ s3, FindAllIdsForField "posts" "author" "alice" dbPosts =
        (s3, .ok ((idxLookup dbPosts "posts" "author" "alice").getD [])) :=
  ⟨by decide, by decide, by decide, by decide, by decide, by decide, by decide,
    C2_index_scan_equivalence dbPosts "posts" "author" "alice" ["author", "tags"]
      (by decide) (by decide) (by decide) (by decide) (by decide) (by decide) (by decide)⟩

theorem C3_witness :
    ("t" ∈ dbTags.rwLocks) ∧
    ∃ s1 L, FindAllIdsForTags "t" ["a", "b"] dbTags = (s1, .ok L) ∧
      (["a", "b"] = ([] : List String) → L = []) ∧
      ((∀ p ∈ tblTagIdx "t" dbTags, p.2.Nodup) →
        ∀ x, x ∈ L ↔ (¬ ["a", "b"] = ([] : List String) ∧
          ∀ t ∈ ["a", "b"], x ∈ bucketOf (tblTagIdx "t" dbTags) t)) :=
  ⟨by decide, by
    obtain ⟨s1, L, h1, h2, h3, h4⟩ :=
      C3_findAllIdsForTags_superset dbTags "t" ["a", "b"] (by decide)
    exact ⟨s1, L, h1, h2, h3⟩⟩
